import Mathlib

set_option maxHeartbeats 1000000

/-
Verification of the cadiback backbone extractor (cadiback.cpp) against its
natural-language specification.  The SAT oracle (CaDiCaL) is external code;
it is modelled as an abstract stateful interface.  The driver loop, the
candidate store, the shortcut probes, the checker sidecar and the result
emitter are translated from cadiback.cpp.  Fatal errors (die, fatal, and the
assertion inside drop_first_candidate which guards an otherwise unbounded
scan) are modelled by returning none; the loop with the goto retry is
modelled with explicit fuel, again returning none on exhaustion, so any
theorem about a run that returns some excludes both aborts and divergence.
-/

namespace Cadiback

/-- Output lines on stdout that the claims talk about: backbone lines b l,
and the two verdict lines.  Comment lines (c ...) are not modelled. -/
inductive Line where
  | b (lit : Int)
  | sat
  | unsat
deriving DecidableEq, Repr

/-- One checker-solver invocation, recording the literal that was assumed:
model checks must answer SAT (10), backbone checks must answer UNSAT (20). -/
inductive Chk where
  | model (lit : Int)
  | backbone (lit : Int)
deriving DecidableEq, Repr

/-- The statistics counters of the static struct statistics. -/
structure Stats where
  backbones : Nat
  dropped : Nat
  filtered : Nat
  checked : Nat
  fixed : Nat
  flipped : Nat
  calls_sat : Nat
  calls_unsat : Nat
  calls_total : Nat
deriving Repr, DecidableEq

/-- Program state: vars, the candidates and fixed arrays, the statistics,
the emitted output lines and the log of checker invocations. -/
structure St where
  vars : Nat
  candidates : Nat → Int
  fixed : Nat → Int
  stats : Stats
  out : List Line
  checkerLog : List Chk

/-- Command line configuration flags, one per option of cadiback.cpp. -/
structure Config where
  check : Bool
  print : Bool
  no_filter : Bool
  no_fixed : Bool
  no_flip : Bool
  no_inprocessing : Bool
  one_by_one : Bool
  set_phase : Bool
  report : Bool
  always_print_statistics : Bool
  verbosity : Int

/-- Result of one solver->solve () call: a model, or unsatisfiable. -/
inductive SolveRes where
  | sat (m : Nat → Bool)
  | unsat

/-- The abstract incremental SAT oracle with hidden state sigma: solve with
assumptions and a one-shot constraint clause, root-level fixed queries, and
the optional model flip probe. -/
structure Oracle (σ : Type) where
  solveFn : σ → List Int → List Int → SolveRes × σ
  fixedFn : σ → Int → Int × σ
  flipFn : σ → (Nat → Bool) → Int → Option (Nat → Bool) × σ

/-- The checker solver: call index and single assumed literal to result. -/
abbrev Checker := Nat → Int → Int

/-- Run state: oracle hidden state, the last model, and the program state. -/
structure RS (σ : Type) where
  os : σ
  model : Nat → Bool
  st : St

/-- The list of indices start, start+1, ..., start+cnt-1, the iteration
space of the for (int idx = start; idx <= vars; idx++) loops. -/
def idx_list (start : Nat) : Nat → List Nat
  | 0 => []
  | cnt+1 => start :: idx_list (start+1) cnt

/-- Number of indices in l whose entry in f is nonzero. -/
def countNonzero (f : Nat → Int) : List Nat → Nat
  | [] => 0
  | j :: rest => (if f j ≠ 0 then 1 else 0) + countNonzero f rest

/-- Number of still-open candidates among variables 1..vars. -/
def countCand (st : St) : Nat :=
  countNonzero st.candidates (idx_list 1 st.vars)

/-- Number of variables 1..vars with a nonzero fixed (backbone) entry. -/
def countFixed (st : St) : Nat :=
  countNonzero st.fixed (idx_list 1 st.vars)

/-- remaining_candidates () of cadiback.cpp. -/
def remaining_candidates (st : St) : Nat :=
  st.vars - (st.stats.dropped + st.stats.backbones)

/-- Reading solver->val (idx) from a model: idx if true else -idx. -/
def litOf (m : Nat → Bool) (idx : Nat) : Int :=
  if m idx then (idx : Int) else -(idx : Int)

/-- The solve () wrapper: counts the call, tallies SAT/UNSAT, and on SAT
installs the new model.  Returns 10 or 20 like solver->solve (). -/
def solve {σ : Type} (O : Oracle σ) (assumps constr : List Int) (rs : RS σ) :
    Int × RS σ :=
  let st :=
    { rs.st with stats := { rs.st.stats with
        calls_total := rs.st.stats.calls_total + 1 } }
  match O.solveFn rs.os assumps constr with
  | (SolveRes.sat m, os) =>
      (10, { os := os, model := m,
             st := { st with stats := { st.stats with
                 calls_sat := st.stats.calls_sat + 1 } } })
  | (SolveRes.unsat, os) =>
      (20, { os := os, model := rs.model,
             st := { st with stats := { st.stats with
                 calls_unsat := st.stats.calls_unsat + 1 } } })

/-- check_model (lit): checker->assume (lit); checker->solve () must be SAT,
anything else is the fatal abort, modelled as none. -/
def check_model (ch : Checker) (lit : Int) (st : St) : Option St :=
  let k := st.stats.checked
  if ch k lit = 10 then
    some { st with stats := { st.stats with checked := k + 1 },
                   checkerLog := st.checkerLog ++ [Chk.model lit] }
  else none

/-- check_backbone (lit): checker->assume (-lit); checker->solve () must be
UNSAT, anything else is the fatal abort, modelled as none. -/
def check_backbone (ch : Checker) (lit : Int) (st : St) : Option St :=
  let k := st.stats.checked
  if ch k (-lit) = 20 then
    some { st with stats := { st.stats with checked := k + 1 },
                   checkerLog := st.checkerLog ++ [Chk.backbone (-lit)] }
  else none

/-- drop_candidate (idx): clear the candidate, count it dropped, and with
the checker enabled verify a model with the negated candidate exists. -/
def drop_candidate (cfg : Config) (ch : Checker) (idx : Nat) (st : St) :
    Option St :=
  let lit := st.candidates idx
  let st :=
    { st with candidates := fun j => if j = idx then 0 else st.candidates j,
              stats := { st.stats with dropped := st.stats.dropped + 1 } }
  if cfg.check then check_model ch (-lit) st else some st

/-- backbone_variable (idx): if still a candidate, move the literal to the
fixed array, print the b line, optionally check it, and count it. -/
def backbone_variable (cfg : Config) (ch : Checker) (idx : Nat) (st : St) :
    Option (Bool × St) :=
  let lit := st.candidates idx
  if lit = 0 then some (false, st)
  else
    let st :=
      { st with fixed := fun j => if j = idx then lit else st.fixed j,
                candidates := fun j => if j = idx then 0 else st.candidates j,
                out := st.out ++ (if cfg.print then [Line.b lit] else []) }
    match (if cfg.check then check_backbone ch lit st else some st) with
    | none => none
    | some st =>
        some (true, { st with stats := { st.stats with
            backbones := st.stats.backbones + 1 } })

/-- backbone_variables (start): force every remaining candidate from start
to vars to be a backbone (used after a constrain UNSAT). -/
def bv_fold (cfg : Config) (ch : Checker) : List Nat → St → Option St
  | [], st => some st
  | idx :: rest, st =>
    match backbone_variable cfg ch idx st with
    | none => none
    | some (_, st) => bv_fold cfg ch rest st

def backbone_variables (cfg : Config) (ch : Checker) (start : Nat) (st : St) :
    Option St :=
  bv_fold cfg ch (idx_list start (st.vars + 1 - start)) st

/-- fix_candidate (idx): query solver->fixed on the candidate literal; +1
promotes, -1 drops, 0 is a no-op; nonzero results are counted. -/
def fix_candidate {σ : Type} (cfg : Config) (O : Oracle σ) (ch : Checker)
    (idx : Nat) (rs : RS σ) : Option (Bool × RS σ) :=
  let lit := rs.st.candidates idx
  let p := O.fixedFn rs.os lit
  let rs : RS σ := { rs with os := p.2 }
  if p.1 = 0 then some (false, rs)
  else
    match (if p.1 > 0 then (backbone_variable cfg ch idx rs.st).map (·.2)
           else some rs.st) with
    | none => none
    | some st =>
      match (if p.1 < 0 then drop_candidate cfg ch idx st else some st) with
      | none => none
      | some st =>
          some (true, { rs with st := { st with stats := { st.stats with
              fixed := st.stats.fixed + 1 } } })

/-- filter_candidate (idx): drop the candidate if the current model
falsifies its conjectured literal. -/
def filter_candidate (cfg : Config) (ch : Checker) (m : Nat → Bool)
    (idx : Nat) (st : St) : Option St :=
  let lit := st.candidates idx
  if lit = 0 then some st
  else if lit = litOf m idx then some st
  else
    drop_candidate cfg ch idx
      { st with stats := { st.stats with filtered := st.stats.filtered + 1 } }

def filter_fold (cfg : Config) (ch : Checker) (m : Nat → Bool) :
    List Nat → St → Option St
  | [], st => some st
  | idx :: rest, st =>
    match filter_candidate cfg ch m idx st with
    | none => none
    | some st => filter_fold cfg ch m rest st

/-- filter_candidates (start): sweep the tail of the candidate array with
the current model, unless disabled by --no-filter. -/
def filter_candidates (cfg : Config) (ch : Checker) (m : Nat → Bool)
    (start : Nat) (st : St) : Option St :=
  if cfg.no_filter ∨ start > st.vars then some st
  else filter_fold cfg ch m (idx_list start (st.vars + 1 - start)) st

/-- The scan of drop_first_candidate: find the first index at or after
start whose candidate literal the model falsifies.  The C loop has no
bound check other than an assertion; running past vars is modelled by
returning none. -/
def dfc_scan (m : Nat → Bool) (cand : Nat → Int) : List Nat → Option Nat
  | [] => none
  | idx :: rest =>
    let lit := cand idx
    if lit = 0 then dfc_scan m cand rest
    else if lit = -(litOf m idx) then some idx
    else dfc_scan m cand rest

/-- drop_first_candidate (start): drop the first candidate refuted by the
current model and return its index. -/
def drop_first_candidate (cfg : Config) (ch : Checker) (m : Nat → Bool)
    (start : Nat) (st : St) : Option (Nat × St) :=
  match dfc_scan m st.candidates (idx_list start (st.vars + 1 - start)) with
  | none => none
  | some idx =>
    match drop_candidate cfg ch idx st with
    | none => none
    | some st => some (idx, st)

/-- One pass of the flip loop body: for each still-candidate index try
solver->flip on its literal; a success mutates the model, counts the flip
and drops the candidate. -/
def flip_pass {σ : Type} (cfg : Config) (O : Oracle σ) (ch : Checker) :
    List Nat → Nat → RS σ → Option (Nat × RS σ)
  | [], changed, rs => some (changed, rs)
  | idx :: rest, changed, rs =>
    let lit := rs.st.candidates idx
    if lit = 0 then flip_pass cfg O ch rest changed rs
    else
      match O.flipFn rs.os rs.model lit with
      | (none, os) => flip_pass cfg O ch rest changed { rs with os := os }
      | (some m, os) =>
        let st := { rs.st with stats := { rs.st.stats with
            flipped := rs.st.stats.flipped + 1 } }
        match drop_candidate cfg ch idx st with
        | none => none
        | some st =>
            flip_pass cfg O ch rest (changed + 1) { os := os, model := m, st := st }

/-- The outer flip loop, a literal translation of
for (size_t round = 1, changed = 1; changed; round++, changed = 0):
the condition is tested, the pass runs, then the update clause resets
changed to 0 before the condition is tested again. -/
def flip_rounds {σ : Type} (cfg : Config) (O : Oracle σ) (ch : Checker)
    (start : Nat) : Nat → Nat → RS σ → Option (RS σ)
  | 0, _, _ => none
  | _+1, 0, rs => some rs
  | fuel+1, _+1, rs =>
    match flip_pass cfg O ch (idx_list start (rs.st.vars + 1 - start)) 1 rs with
    | none => none
    | some (_, rs) => flip_rounds cfg O ch start fuel 0 rs

/-- try_to_flip_remaining (start). -/
def try_to_flip_remaining {σ : Type} (cfg : Config) (O : Oracle σ)
    (ch : Checker) (start : Nat) (rs : RS σ) : Option (RS σ) :=
  if cfg.no_flip then some rs
  else flip_rounds cfg O ch start (rs.st.vars + 2) 1 rs

/-- The constrain-collection loop of main: gather the negations of the
remaining candidate literals above idx, running the root-fixed probe on
each on the way (unless --no-fixed). -/
def collect_constr {σ : Type} (cfg : Config) (O : Oracle σ) (ch : Checker) :
    List Nat → List Int → RS σ → Option (List Int × RS σ)
  | [], acc, rs => some (acc, rs)
  | other :: rest, acc, rs =>
    let lo := rs.st.candidates other
    if lo = 0 then collect_constr cfg O ch rest acc rs
    else if cfg.no_fixed then collect_constr cfg O ch rest (acc ++ [-lo]) rs
    else
      match fix_candidate cfg O ch other rs with
      | none => none
      | some (true, rs) => collect_constr cfg O ch rest acc rs
      | some (false, rs) => collect_constr cfg O ch rest (acc ++ [-lo]) rs

/-- The probes run after a constrain call returned a model (lines 894-896):
drop the first refuted candidate at or after idx, filter the tail above it,
then the flip sweep from idx. -/
def sat_probe_step {σ : Type} (cfg : Config) (O : Oracle σ) (ch : Checker)
    (idx : Nat) (rs : RS σ) : Option (RS σ) :=
  match drop_first_candidate cfg ch rs.model idx rs.st with
  | none => none
  | some (other, st) =>
    match filter_candidates cfg ch rs.model (other+1) st with
    | none => none
    | some st => try_to_flip_remaining cfg O ch idx { rs with st := st }

/-- The one-by-one step (lines 922-938): assume the negated candidate and
solve; on SAT drop it, filter and flip the tail; on UNSAT promote it.
Returns the solver result (the new value of last) and the new state. -/
def one_step {σ : Type} (cfg : Config) (O : Oracle σ) (ch : Checker)
    (idx : Nat) (lit : Int) (rs : RS σ) : Option (Int × RS σ) :=
  let p := solve O [-lit] [] rs
  if p.1 = 10 then
    match drop_candidate cfg ch idx p.2.st with
    | none => none
    | some st =>
      match filter_candidates cfg ch p.2.model (idx+1) st with
      | none => none
      | some st =>
        (try_to_flip_remaining cfg O ch (idx+1) { p.2 with st := st }).map
          (fun rs => (p.1, rs))
  else
    (backbone_variable cfg ch idx p.2.st).map
      (fun q => (p.1, { p.2 with st := q.2 }))

/-- The main refinement loop of main (), lines 830-939 of cadiback.cpp.
idx walks 1..vars; last holds the result of the most recent solver call
(initialized to 10); the TRY_SAME_CANDIDATE_AGAIN retry is the recursive
call that keeps idx.  Fuel exhaustion is modelled as none. -/
def driver_loop {σ : Type} (cfg : Config) (O : Oracle σ) (ch : Checker) :
    Nat → Nat → Int → RS σ → Option (RS σ)
  | 0, _, _, _ => none
  | fuel+1, idx, last, rs =>
    if idx > rs.st.vars then some rs
    else
      let lit := rs.st.candidates idx
      if lit = 0 then driver_loop cfg O ch fuel (idx+1) last rs
      else
        match (if cfg.no_fixed then some (false, rs)
               else fix_candidate cfg O ch idx rs) with
        | none => none
        | some (true, rs) => driver_loop cfg O ch fuel (idx+1) last rs
        | some (false, rs) =>
          if cfg.one_by_one = false ∧ last = 20 then
            match collect_constr cfg O ch (idx_list (idx+1) (rs.st.vars - idx))
                [-lit] rs with
            | none => none
            | some (constr, rs) =>
              if constr.length > 1 then
                let q := solve O [] constr rs
                if q.1 = 10 then
                  match sat_probe_step cfg O ch idx q.2 with
                  | none => none
                  | some rs =>
                    if rs.st.candidates idx ≠ 0 then
                      driver_loop cfg O ch fuel idx q.1 rs
                    else
                      driver_loop cfg O ch fuel (idx+1) q.1 rs
                else
                  match backbone_variables cfg ch idx q.2.st with
                  | none => none
                  | some st => some { q.2 with st := st }
              else
                match one_step cfg O ch idx lit rs with
                | none => none
                | some (last, rs) => driver_loop cfg O ch fuel (idx+1) last rs
          else
            match one_step cfg O ch idx lit rs with
            | none => none
            | some (last, rs) => driver_loop cfg O ch fuel (idx+1) last rs

/-- The all-zero program state right after parsing vars variables. -/
def init_state (vars : Nat) : St :=
  { vars := vars, candidates := fun _ => 0, fixed := fun _ => 0,
    stats := ⟨0, 0, 0, 0, 0, 0, 0, 0, 0⟩, out := [], checkerLog := [] }

/-- Initialize the candidate literals from the first model; the fixed
array starts all zero. -/
def init_candidates (m : Nat → Bool) (st : St) : St :=
  { st with
    candidates := fun j => if 1 ≤ j ∧ j ≤ st.vars then litOf m j else 0,
    fixed := fun _ => 0 }

/-- After the loop: print the b 0 terminator and the s SATISFIABLE line,
then verify the checker was invoked exactly vars times (a mismatch in
either direction is the fatal abort, modelled as none). -/
def finish_run (cfg : Config) (vars : Nat) (st : St) : Option (Nat × St) :=
  let st := { st with out :=
    st.out ++ (if cfg.print then [Line.b 0] else []) ++ [Line.sat] }
  if cfg.check ∧ st.stats.checked ≠ vars then none
  else some (10, st)

/-- The run state before the first solver call. -/
def rs_init {σ : Type} (os₀ : σ) (vars : Nat) : RS σ :=
  { os := os₀, model := fun _ => false, st := init_state vars }

/-- The whole run after a successful parse of vars variables: first solver
call, candidate initialization from the first model, the initial flip
sweep, the refinement loop, and the final output; or the UNSAT verdict. -/
def main_run {σ : Type} (cfg : Config) (O : Oracle σ) (ch : Checker)
    (os₀ : σ) (vars fuel : Nat) : Option (Nat × St) :=
  let p := solve O [] [] (rs_init os₀ vars)
  if p.1 = 10 then
    let rs : RS σ := { p.2 with st := init_candidates p.2.model p.2.st }
    match try_to_flip_remaining cfg O ch 1 rs with
    | none => none
    | some rs =>
      match driver_loop cfg O ch fuel 1 10 rs with
      | none => none
      | some rs => finish_run cfg vars rs.st
  else
    some (20, { p.2.st with out := p.2.st.out ++ [Line.unsat] })

/-- Outcome of command line processing: an immediate exit (0 for help or
version, 1 for a usage error) or a run configuration. -/
inductive ParseOut where
  | exitc (code : Nat)
  | run (cfg : Config) (path : Option String)

/-- The option defaults of cadiback.cpp. -/
def default_config : Config :=
  { check := false, print := true, no_filter := false, no_fixed := false,
    no_flip := false, no_inprocessing := false, one_by_one := false,
    set_phase := false, report := false, always_print_statistics := false,
    verbosity := 0 }

/-- The test arg[0] for the minus sign that classifies an argument as an
option. -/
def dash_arg (arg : String) : Bool :=
  match arg.data with
  | c :: _ => c = '-'
  | [] => false

/-- The argument loop of main (), lines 625-681: each known option updates
the configuration, -h and -V and --version exit 0, an unknown dash argument or
a second file argument dies with exit code 1. -/
def parse_args : List String → Config → Option String → ParseOut
  | [], cfg, path => ParseOut.run cfg path
  | arg :: rest, cfg, path =>
    if arg = "-h" then ParseOut.exitc 0
    else if arg = "-V" ∨ arg = "--version" then ParseOut.exitc 0
    else if arg = "-c" ∨ arg = "--check" then
      parse_args rest { cfg with check := true } path
    else if arg = "-l" ∨ arg = "--logging" then
      parse_args rest { cfg with verbosity := 2147483647 } path
    else if arg = "-n" ∨ arg = "--no-print" then
      parse_args rest { cfg with print := false } path
    else if arg = "-q" ∨ arg = "--quiet" then
      parse_args rest { cfg with verbosity := -1 } path
    else if arg = "-r" ∨ arg = "--report" then
      parse_args rest { cfg with report := true } path
    else if arg = "-s" ∨ arg = "--statistics" then
      parse_args rest { cfg with always_print_statistics := true } path
    else if arg = "-v" ∨ arg = "--verbose" then
      parse_args rest
        { cfg with verbosity :=
            if cfg.verbosity < 0 then 1
            else if cfg.verbosity < 2147483647 then cfg.verbosity + 1
            else cfg.verbosity } path
    else if arg = "--no-filter" then
      parse_args rest { cfg with no_filter := true } path
    else if arg = "--no-fixed" then
      parse_args rest { cfg with no_fixed := true } path
    else if arg = "--no-flip" then
      parse_args rest { cfg with no_flip := true } path
    else if arg = "--no-inprocessing" then
      parse_args rest { cfg with no_inprocessing := true } path
    else if arg = "--one-by-one" then
      parse_args rest { cfg with one_by_one := true } path
    else if arg = "--set-phase" then
      parse_args rest { cfg with set_phase := true } path
    else if arg = "--plain" then
      parse_args rest
        { cfg with no_filter := true, no_fixed := true, no_flip := true,
                   no_inprocessing := true, one_by_one := true } path
    else if dash_arg arg then ParseOut.exitc 1
    else
      match path with
      | some _ => ParseOut.exitc 1
      | none => parse_args rest cfg (some arg)

/-- The options recognized by the argument loop. -/
def known_options : List String :=
  ["-h", "-V", "--version", "-c", "--check", "-l", "--logging", "-n",
   "--no-print", "-q", "--quiet", "-r", "--report", "-s", "--statistics",
   "-v", "--verbose", "--no-filter", "--no-fixed", "--no-flip",
   "--no-inprocessing", "--one-by-one", "--set-phase", "--plain"]

/-- The whole program: parse the command line, then the DIMACS input
(supplied abstractly: none is a parse failure, which dies with exit 1),
refuse exactly INT_MAX variables with exit 1, and otherwise run.  The
returned number is the process exit code. -/
def cadiback_main {σ : Type} (args : List String) (dimacs : Option Nat)
    (O : Oracle σ) (ch : Checker) (os₀ : σ) (fuel : Nat) :
    Option (Nat × St) :=
  match parse_args args default_config none with
  | ParseOut.exitc c => some (c, init_state 0)
  | ParseOut.run cfg _ =>
    match dimacs with
    | none => some (1, init_state 0)
    | some vars =>
      if vars = 2147483647 then some (1, init_state vars)
      else main_run cfg O ch os₀ vars fuel

/-
Concrete instances: an executable reference oracle obtained by brute-force
enumeration of assignments, used to run the embedded program on the small
DIMACS instances of the specification scenarios.
-/

/-- All lists of n booleans (false branch first). -/
def boolLists : Nat → List (List Bool)
  | 0 => [[]]
  | n+1 => (boolLists n).map (false :: ·) ++ (boolLists n).map (true :: ·)

/-- View a list of booleans as an assignment to variables 1..n. -/
def assignOf (bs : List Bool) : Nat → Bool :=
  fun i => bs.getD (i - 1) false

/-- Truth of a literal under an assignment. -/
def satLitB (m : Nat → Bool) (l : Int) : Bool :=
  if l > 0 then m l.toNat else !(m (-l).toNat)

/-- Truth of a clause (a disjunction of literals). -/
def satClauseB (m : Nat → Bool) (c : List Int) : Bool :=
  c.any (satLitB m)

/-- Truth of a CNF formula. -/
def satCnfB (m : Nat → Bool) (F : List (List Int)) : Bool :=
  F.all (satClauseB m)

/-- Reference solve: search the assignments to variables 1..n for one that
satisfies the formula, all assumptions, and (when nonempty) the one-shot
constraint clause. -/
def solveSem (F : List (List Int)) (n : Nat) (assumps constr : List Int) :
    SolveRes :=
  match ((boolLists n).map assignOf).find? (fun m =>
      satCnfB m F && assumps.all (satLitB m) &&
      (constr.isEmpty || satClauseB m constr)) with
  | some m => SolveRes.sat m
  | none => SolveRes.unsat

/-- The reference oracle for formula F over n variables: exact solve
answers, a root-fixed query that always answers 0 and a flip probe that
always fails (both are legal solver behaviours). -/
def semOracle (F : List (List Int)) (n : Nat) : Oracle Unit :=
  { solveFn := fun s a c => (solveSem F n a c, s)
  , fixedFn := fun s _ => (0, s)
  , flipFn := fun s _ _ => (none, s) }

/-- A checker stub for runs with checking disabled. -/
def ch0 : Checker := fun _ _ => 0

/-- The exact checker for formula F over n variables: SAT iff the formula
together with the assumed literal is satisfiable. -/
def chSem (F : List (List Int)) (n : Nat) : Checker :=
  fun _ lit =>
    match solveSem F n [lit] [] with
    | SolveRes.sat _ => 10
    | SolveRes.unsat => 20

/-- The scenario formula p cnf 3 3 with unit clauses 1, 2, 3. -/
def F3 : List (List Int) := [[1], [2], [3]]

def O3 : Oracle Unit := semOracle F3 3

/-- The default-configuration run on F3. -/
def run3 : Option (Nat × St) := main_run default_config O3 ch0 () 3 10

/-- The --no-print configuration. -/
def cfg_np : Config := { default_config with print := false }

/-- The F3 run with printing suppressed. -/
def run3np : Option (Nat × St) := main_run cfg_np O3 ch0 () 3 10

/-- The --check configuration. -/
def cfg_chk : Config := { default_config with check := true }

/-- The F3 run with the checker enabled and answering exactly. -/
def run3chk : Option (Nat × St) := main_run cfg_chk O3 (chSem F3 3) () 3 10

/-- The formula p cnf 3 1 with the single clause 1 (variables 2, 3 free). -/
def F1 : List (List Int) := [[1]]

def O1 : Oracle Unit := semOracle F1 3

/-- The default-configuration run on F1. -/
def run1 : Option (Nat × St) := main_run default_config O1 ch0 () 3 10

/-- The driver state of the F1 run when the loop reaches idx = 2 with
last = 20: variable 1 promoted, candidates -2 and -3 remain, the model is
the first model (1 true, 2 and 3 false). -/
def rs5 : RS Unit :=
  { os := ()
  , model := assignOf [true, false, false]
  , st :=
    { vars := 3
    , candidates := fun j => if j = 2 then -2 else if j = 3 then -3 else 0
    , fixed := fun j => if j = 1 then 1 else 0
    , stats := ⟨1, 0, 0, 0, 0, 0, 1, 1, 2⟩
    , out := [Line.b 1]
    , checkerLog := [] } }

/-- The successive intermediate values of the constrain-SAT step taken
from rs5, used to instantiate the step theorem concretely. -/
def w5a : Bool × RS Unit :=
  (if default_config.no_fixed then some (false, rs5)
   else fix_candidate default_config O1 ch0 2 rs5).getD (true, rs5)

def w5b : List Int × RS Unit :=
  (collect_constr default_config O1 ch0 (idx_list 3 (rs5.st.vars - 2)) [2]
    w5a.2).getD ([], rs5)

def w5q : Int × RS Unit := solve O1 [] w5b.1 w5b.2

def w5d : Nat × St :=
  (drop_first_candidate default_config ch0 w5q.2.model 2 w5q.2.st).getD
    (0, init_state 0)

def w5f : St :=
  (filter_candidates default_config ch0 w5q.2.model (w5d.1 + 1) w5d.2).getD
    (init_state 0)

def w5t : RS Unit :=
  (try_to_flip_remaining default_config O1 ch0 2 { w5q.2 with st := w5f }).getD
    rs5

/-- A flip oracle exhibiting the single-round behaviour of the flip loop:
the literal 2 can always be flipped; the literal 1 can be flipped only
once variable 2 is false, so it is flippable only in a second round. -/
def flipO : Oracle Unit :=
  { solveFn := fun s _ _ => (SolveRes.unsat, s)
  , fixedFn := fun s _ => (0, s)
  , flipFn := fun s m lit =>
      if lit = 2 then (some (fun j => if j = 2 then !(m 2) else m j), s)
      else if lit = 1 ∧ m 2 = false then
        (some (fun j => if j = 1 then !(m 1) else m j), s)
      else (none, s) }

/-- Two still-open candidates 1 and 2 with the all-true model. -/
def rs2 : RS Unit :=
  { os := ()
  , model := fun _ => true
  , st :=
    { vars := 2
    , candidates := fun j => if j = 1 then 1 else if j = 2 then 2 else 0
    , fixed := fun _ => 0
    , stats := ⟨0, 0, 0, 0, 0, 0, 0, 0, 0⟩
    , out := []
    , checkerLog := [] } }

/-
Specification-level predicates used by the theorems.
-/

/-- The model falsifies the candidate literal stored at index j. -/
def falsifiedP (m : Nat → Bool) (cand : Nat → Int) (j : Nat) : Prop :=
  cand j ≠ 0 ∧ cand j = -(litOf m j)

instance (m : Nat → Bool) (cand : Nat → Int) (j : Nat) :
    Decidable (falsifiedP m cand j) := by
  unfold falsifiedP; infer_instance

/-- Verdict lines among the output. -/
def is_verdict : Line → Bool
  | Line.b _ => false
  | Line.sat => true
  | Line.unsat => true

/-- The driver-loop data invariant: the counters partition the variables,
the fixed array counts the backbones, candidate and fixed entries are
disjoint and in range, the output so far consists of b lines with nonzero
literals (none at all when printing is suppressed), and with the checker
enabled the checker log matches the checked counter, one invocation per
decided variable. -/
structure Inv (cfg : Config) (st : St) : Prop where
  sum_eq : st.stats.backbones + st.stats.dropped + countCand st = st.vars
  fixed_count : countFixed st = st.stats.backbones
  disjoint : ∀ j, st.candidates j ≠ 0 → st.fixed j = 0
  range_cand : ∀ j, st.candidates j = 0 ∨ st.candidates j = (j : Int) ∨
      st.candidates j = -(j : Int)
  out_range : ∀ j, ¬(1 ≤ j ∧ j ≤ st.vars) → st.candidates j = 0 ∧ st.fixed j = 0
  out_lines : ∀ l ∈ st.out, ∃ z : Int, z ≠ 0 ∧ l = Line.b z
  out_print : cfg.print = false → st.out = []
  chk_len : cfg.check = true → st.checkerLog.length = st.stats.checked
  chk_dc : cfg.check = true →
      st.stats.checked = st.stats.dropped + st.stats.backbones

/-- One driver step from st to st': the variable count is unchanged,
candidate entries only ever move to zero, and the invariant is preserved. -/
def StepTo (cfg : Config) (st st' : St) : Prop :=
  st'.vars = st.vars ∧
  (∀ j, st'.candidates j = st.candidates j ∨ st'.candidates j = 0) ∧
  (Inv cfg st → Inv cfg st')

/-
Basic lemmas about the index lists and the nonzero counters.
-/

theorem mem_idx_list : ∀ (c s j : Nat), j ∈ idx_list s c ↔ s ≤ j ∧ j < s + c := by
  intro c
  induction c with
  | zero =>
    intro s j
    constructor
    · intro h; cases h
    · intro h; exact absurd h (by omega)
  | succ c ih =>
    intro s j
    simp only [idx_list, List.mem_cons, ih (s+1) j]
    omega

theorem idx_list_nodup : ∀ (c s : Nat), (idx_list s c).Nodup := by
  intro c
  induction c with
  | zero => intro s; simp [idx_list]
  | succ c ih =>
    intro s
    simp only [idx_list, List.nodup_cons]
    refine ⟨?_, ih (s+1)⟩
    rw [mem_idx_list]
    omega

theorem idx_list_length : ∀ (c s : Nat), (idx_list s c).length = c := by
  intro c
  induction c with
  | zero => intro s; rfl
  | succ c ih => intro s; simp [idx_list, ih (s+1)]

theorem countNonzero_congr {f g : Nat → Int} :
    ∀ {L : List Nat}, (∀ j ∈ L, f j = g j) →
      countNonzero f L = countNonzero g L := by
  intro L
  induction L with
  | nil => intro _; rfl
  | cons a L ih =>
    intro h
    simp only [countNonzero]
    rw [h a (by simp), ih (fun j hj => h j (by simp [hj]))]

theorem countNonzero_drop {f : Nat → Int} {L : List Nat} {idx : Nat}
    (hnd : L.Nodup) (hm : idx ∈ L) (hnz : f idx ≠ 0) :
    countNonzero (fun j => if j = idx then 0 else f j) L + 1 =
      countNonzero f L := by
  induction L with
  | nil => cases hm
  | cons a L ih =>
    rcases List.mem_cons.mp hm with rfl | h
    · have hnotin : idx ∉ L := (List.nodup_cons.mp hnd).1
      have hrest : countNonzero (fun j => if j = idx then 0 else f j) L =
          countNonzero f L :=
        countNonzero_congr (fun j hj => by
          rw [if_neg]; intro e; exact hnotin (e ▸ hj))
      simp only [countNonzero, hrest]
      simp [hnz]
      omega
    · have hne : a ≠ idx := by
        intro e; exact (List.nodup_cons.mp hnd).1 (e ▸ h)
      have := ih (List.nodup_cons.mp hnd).2 h
      simp only [countNonzero, if_neg hne]
      omega

theorem countNonzero_set {f : Nat → Int} {L : List Nat} {idx : Nat} {v : Int}
    (hnd : L.Nodup) (hm : idx ∈ L) (hz : f idx = 0) (hv : v ≠ 0) :
    countNonzero (fun j => if j = idx then v else f j) L =
      countNonzero f L + 1 := by
  induction L with
  | nil => cases hm
  | cons a L ih =>
    rcases List.mem_cons.mp hm with rfl | h
    · have hnotin : idx ∉ L := (List.nodup_cons.mp hnd).1
      have hrest : countNonzero (fun j => if j = idx then v else f j) L =
          countNonzero f L :=
        countNonzero_congr (fun j hj => by
          rw [if_neg]; intro e; exact hnotin (e ▸ hj))
      simp only [countNonzero, hrest]
      simp [hz, hv]
      omega
    · have hne : a ≠ idx := by
        intro e; exact (List.nodup_cons.mp hnd).1 (e ▸ h)
      have := ih (List.nodup_cons.mp hnd).2 h
      simp only [countNonzero, if_neg hne]
      omega

theorem countNonzero_zero_of {f : Nat → Int} :
    ∀ {L : List Nat}, (∀ j ∈ L, f j = 0) → countNonzero f L = 0 := by
  intro L
  induction L with
  | nil => intro _; rfl
  | cons a L ih =>
    intro h
    simp only [countNonzero, h a (by simp), ih (fun j hj => h j (by simp [hj]))]
    simp

theorem countNonzero_all_of {f : Nat → Int} :
    ∀ {L : List Nat}, (∀ j ∈ L, f j ≠ 0) → countNonzero f L = L.length := by
  intro L
  induction L with
  | nil => intro _; rfl
  | cons a L ih =>
    intro h
    simp only [countNonzero, if_pos (h a (by simp)),
      ih (fun j hj => h j (by simp [hj])), List.length_cons]
    omega

theorem countNonzero_le {f : Nat → Int} :
    ∀ {L : List Nat}, countNonzero f L ≤ L.length := by
  intro L
  induction L with
  | nil => exact Nat.le_refl 0
  | cons a L ih =>
    simp only [countNonzero, List.length_cons]
    split <;> omega

/-
StepTo is reflexive and transitive, and preserves zero entries.
-/

theorem StepTo_refl {cfg : Config} {st : St} : StepTo cfg st st :=
  ⟨rfl, fun _ => Or.inl rfl, id⟩

theorem StepTo_trans {cfg : Config} {a b c : St}
    (h1 : StepTo cfg a b) (h2 : StepTo cfg b c) : StepTo cfg a c := by
  refine ⟨h2.1.trans h1.1, ?_, fun hi => h2.2.2 (h1.2.2 hi)⟩
  intro j
  rcases h2.2.1 j with e | e
  · rw [e]; exact h1.2.1 j
  · exact Or.inr e

theorem StepTo_zero {cfg : Config} {st st' : St} (h : StepTo cfg st st')
    {j : Nat} (hz : st.candidates j = 0) : st'.candidates j = 0 := by
  rcases h.2.1 j with e | e
  · rw [e, hz]
  · exact e

/-
Shape lemmas for the elementary operations.
-/

theorem check_model_some {ch : Checker} {lit : Int} {st st' : St}
    (h : check_model ch lit st = some st') :
    ch st.stats.checked lit = 10 ∧
    st' = { st with
      stats := { st.stats with checked := st.stats.checked + 1 },
      checkerLog := st.checkerLog ++ [Chk.model lit] } := by
  simp only [check_model] at h
  split at h
  · exact ⟨by assumption, (Option.some.inj h).symm⟩
  · cases h

theorem check_backbone_some {ch : Checker} {lit : Int} {st st' : St}
    (h : check_backbone ch lit st = some st') :
    ch st.stats.checked (-lit) = 20 ∧
    st' = { st with
      stats := { st.stats with checked := st.stats.checked + 1 },
      checkerLog := st.checkerLog ++ [Chk.backbone (-lit)] } := by
  simp only [check_backbone] at h
  split at h
  · exact ⟨by assumption, (Option.some.inj h).symm⟩
  · cases h

theorem drop_candidate_some {cfg : Config} {ch : Checker} {idx : Nat}
    {st st' : St} (h : drop_candidate cfg ch idx st = some st') :
    st'.vars = st.vars ∧
    st'.candidates = (fun j => if j = idx then 0 else st.candidates j) ∧
    st'.fixed = st.fixed ∧
    st'.out = st.out ∧
    st'.stats.backbones = st.stats.backbones ∧
    st'.stats.dropped = st.stats.dropped + 1 ∧
    st'.stats.checked = st.stats.checked + (if cfg.check then 1 else 0) ∧
    st'.checkerLog = st.checkerLog ++
      (if cfg.check then [Chk.model (-(st.candidates idx))] else []) ∧
    (cfg.check = true → ch st.stats.checked (-(st.candidates idx)) = 10) := by
  unfold drop_candidate at h
  by_cases hc : cfg.check
  · rw [if_pos hc] at h
    obtain ⟨h10, hrec⟩ := check_model_some h
    subst hrec
    refine ⟨rfl, rfl, rfl, rfl, rfl, rfl, ?_, ?_, fun _ => h10⟩
    · rw [if_pos hc]
    · rw [if_pos hc]
  · rw [if_neg hc] at h
    have e := (Option.some.inj h).symm
    subst e
    refine ⟨rfl, rfl, rfl, rfl, rfl, rfl, ?_, ?_, fun hcc => absurd hcc hc⟩
    · rw [if_neg hc]; simp
    · rw [if_neg hc]; simp

theorem backbone_variable_zero {cfg : Config} {ch : Checker} {idx : Nat}
    {st : St} (h : st.candidates idx = 0) :
    backbone_variable cfg ch idx st = some (false, st) := by
  simp [backbone_variable, h]

theorem backbone_variable_some {cfg : Config} {ch : Checker} {idx : Nat}
    {st : St} {b : Bool} {st' : St} (hnz : st.candidates idx ≠ 0)
    (h : backbone_variable cfg ch idx st = some (b, st')) :
    b = true ∧
    st'.vars = st.vars ∧
    st'.candidates = (fun j => if j = idx then 0 else st.candidates j) ∧
    st'.fixed = (fun j => if j = idx then st.candidates idx else st.fixed j) ∧
    st'.out = st.out ++ (if cfg.print then [Line.b (st.candidates idx)] else []) ∧
    st'.stats.backbones = st.stats.backbones + 1 ∧
    st'.stats.dropped = st.stats.dropped ∧
    st'.stats.checked = st.stats.checked + (if cfg.check then 1 else 0) ∧
    st'.checkerLog = st.checkerLog ++
      (if cfg.check then [Chk.backbone (-(st.candidates idx))] else []) ∧
    (cfg.check = true → ch st.stats.checked (-(st.candidates idx)) = 20) := by
  simp only [backbone_variable] at h
  rw [if_neg hnz] at h
  by_cases hc : cfg.check
  · rw [if_pos hc] at h
    split at h
    · cases h
    · rename_i st3 heq
      obtain ⟨h20, hrec⟩ := check_backbone_some heq
      subst hrec
      have h' := Option.some.inj h
      have hb : b = true := (congrArg Prod.fst h').symm
      have hst : st' = _ := (congrArg Prod.snd h').symm
      subst hst
      refine ⟨hb, rfl, rfl, rfl, rfl, rfl, rfl, ?_, ?_, fun _ => h20⟩
      · rw [if_pos hc]
      · rw [if_pos hc]
  · rw [if_neg hc] at h
    split at h
    · cases h
    · rename_i st3 heq
      have hrec := Option.some.inj heq
      subst hrec
      have h' := Option.some.inj h
      have hb : b = true := (congrArg Prod.fst h').symm
      have hst : st' = _ := (congrArg Prod.snd h').symm
      subst hst
      refine ⟨hb, rfl, rfl, rfl, rfl, rfl, rfl, ?_, ?_, fun hcc => absurd hcc hc⟩
      · rw [if_neg hc]; simp
      · rw [if_neg hc]; simp

/-
StepTo lemmas: each operation of the driver preserves the invariant.
-/

theorem drop_candidate_step {cfg : Config} {ch : Checker} {idx : Nat}
    {st st' : St} (h1 : 1 ≤ idx) (h2 : idx ≤ st.vars)
    (hnz : st.candidates idx ≠ 0)
    (h : drop_candidate cfg ch idx st = some st') : StepTo cfg st st' := by
  obtain ⟨hv, hcand, hf, ho, hb, hd, hk, hl, _⟩ := drop_candidate_some h
  refine ⟨hv, ?_, ?_⟩
  · intro j
    rw [hcand]
    by_cases e : j = idx
    · subst e; simp
    · simp [e]
  · intro hi
    have hm : idx ∈ idx_list 1 st.vars := (mem_idx_list _ _ _).2 ⟨h1, by omega⟩
    have hcc : countCand st' + 1 = countCand st := by
      unfold countCand
      rw [hv, hcand]
      exact countNonzero_drop (idx_list_nodup _ _) hm hnz
    constructor
    · rw [hb, hd, hv]
      have := hi.sum_eq
      omega
    · unfold countFixed
      rw [hv, hf, hb]
      exact hi.fixed_count
    · intro j hj
      rw [hcand] at hj
      rw [hf]
      by_cases e : j = idx
      · subst e; simp at hj
      · simp only [if_neg e] at hj; exact hi.disjoint j hj
    · intro j
      rw [hcand]
      by_cases e : j = idx
      · subst e; simp
      · simp only [if_neg e]; exact hi.range_cand j
    · intro j hj
      rw [hv] at hj
      rw [hcand, hf]
      have e : j ≠ idx := by
        intro e; subst e; exact hj ⟨h1, h2⟩
      simp only [if_neg e]
      exact hi.out_range j hj
    · rw [ho]; exact hi.out_lines
    · intro hp; rw [ho]; exact hi.out_print hp
    · intro hcc2
      rw [hl, hk, if_pos hcc2, if_pos hcc2]
      simp [hi.chk_len hcc2]
    · intro hcc2
      rw [hk, hd, hb, if_pos hcc2]
      have := hi.chk_dc hcc2
      omega

theorem backbone_variable_step {cfg : Config} {ch : Checker} {idx : Nat}
    {st : St} {b : Bool} {st' : St} (h1 : 1 ≤ idx) (h2 : idx ≤ st.vars)
    (hnz : st.candidates idx ≠ 0)
    (h : backbone_variable cfg ch idx st = some (b, st')) :
    StepTo cfg st st' ∧ st'.candidates idx = 0 := by
  obtain ⟨hb, hv, hcand, hf, ho, hbb, hd, hk, hl, _⟩ :=
    backbone_variable_some hnz h
  refine ⟨⟨hv, ?_, ?_⟩, by rw [hcand]; simp⟩
  · intro j
    rw [hcand]
    by_cases e : j = idx
    · subst e; simp
    · simp [e]
  · intro hi
    have hm : idx ∈ idx_list 1 st.vars := (mem_idx_list _ _ _).2 ⟨h1, by omega⟩
    have hcc : countCand st' + 1 = countCand st := by
      unfold countCand
      rw [hv, hcand]
      exact countNonzero_drop (idx_list_nodup _ _) hm hnz
    constructor
    · rw [hbb, hd, hv]
      have := hi.sum_eq
      omega
    · unfold countFixed
      rw [hv, hf, hbb]
      have hz : st.fixed idx = 0 := hi.disjoint idx hnz
      rw [countNonzero_set (idx_list_nodup _ _) hm hz hnz]
      have := hi.fixed_count
      unfold countFixed at this
      omega
    · intro j hj
      rw [hcand] at hj
      rw [hf]
      by_cases e : j = idx
      · subst e; simp at hj
      · simp only [if_neg e] at hj
        simp only [if_neg e]
        exact hi.disjoint j hj
    · intro j
      rw [hcand]
      by_cases e : j = idx
      · subst e; simp
      · simp only [if_neg e]; exact hi.range_cand j
    · intro j hj
      rw [hv] at hj
      rw [hcand, hf]
      have e : j ≠ idx := by
        intro e; subst e; exact hj ⟨h1, h2⟩
      simp only [if_neg e]
      exact hi.out_range j hj
    · intro l hl2
      rw [ho] at hl2
      rcases List.mem_append.mp hl2 with hin | hin
      · exact hi.out_lines l hin
      · by_cases hp : cfg.print
        · rw [if_pos hp] at hin
          simp at hin
          exact ⟨st.candidates idx, hnz, hin⟩
        · rw [if_neg hp] at hin
          cases hin
    · intro hp
      rw [ho, if_neg (by simp [hp]), List.append_nil]
      exact hi.out_print hp
    · intro hcc2
      rw [hl, hk, if_pos hcc2, if_pos hcc2]
      simp [hi.chk_len hcc2]
    · intro hcc2
      rw [hk, hd, hbb, if_pos hcc2]
      have := hi.chk_dc hcc2
      omega

/-- Changing only the fixed statistics counter keeps the invariant. -/
theorem Inv_statsfixed {cfg : Config} {st : St} {n : Nat} (hi : Inv cfg st) :
    Inv cfg { st with stats := { st.stats with fixed := n } } :=
  ⟨hi.sum_eq, hi.fixed_count, hi.disjoint, hi.range_cand, hi.out_range,
   hi.out_lines, hi.out_print, hi.chk_len, hi.chk_dc⟩

theorem fix_candidate_eq_zero {σ : Type} {cfg : Config} {O : Oracle σ}
    {ch : Checker} {idx : Nat} {rs : RS σ}
    (hz : (O.fixedFn rs.os (rs.st.candidates idx)).1 = 0) :
    fix_candidate cfg O ch idx rs =
      some (false, { rs with os := (O.fixedFn rs.os (rs.st.candidates idx)).2 }) := by
  simp [fix_candidate, hz]

theorem fix_candidate_eq_neg {σ : Type} {cfg : Config} {O : Oracle σ}
    {ch : Checker} {idx : Nat} {rs : RS σ}
    (hlt : (O.fixedFn rs.os (rs.st.candidates idx)).1 < 0) :
    fix_candidate cfg O ch idx rs =
      (drop_candidate cfg ch idx rs.st).map (fun st =>
        (true, { os := (O.fixedFn rs.os (rs.st.candidates idx)).2,
                 model := rs.model,
                 st := { st with stats := { st.stats with
                     fixed := st.stats.fixed + 1 } } })) := by
  have hne : ¬ (O.fixedFn rs.os (rs.st.candidates idx)).1 = 0 := by omega
  have hngt : ¬ (O.fixedFn rs.os (rs.st.candidates idx)).1 > 0 := by omega
  simp only [fix_candidate, if_neg hne, if_neg hngt, if_pos hlt]
  cases drop_candidate cfg ch idx rs.st <;> rfl

theorem fix_candidate_eq_pos {σ : Type} {cfg : Config} {O : Oracle σ}
    {ch : Checker} {idx : Nat} {rs : RS σ}
    (hgt : (O.fixedFn rs.os (rs.st.candidates idx)).1 > 0) :
    fix_candidate cfg O ch idx rs =
      (backbone_variable cfg ch idx rs.st).map (fun q =>
        (true, { os := (O.fixedFn rs.os (rs.st.candidates idx)).2,
                 model := rs.model,
                 st := { q.2 with stats := { q.2.stats with
                     fixed := q.2.stats.fixed + 1 } } })) := by
  have hne : ¬ (O.fixedFn rs.os (rs.st.candidates idx)).1 = 0 := by omega
  have hnlt : ¬ (O.fixedFn rs.os (rs.st.candidates idx)).1 < 0 := by omega
  simp only [fix_candidate, if_neg hne, if_pos hgt, if_neg hnlt]
  cases backbone_variable cfg ch idx rs.st <;> rfl

theorem fix_candidate_step {σ : Type} {cfg : Config} {O : Oracle σ}
    {ch : Checker} {idx : Nat} {rs : RS σ} {b : Bool} {rs' : RS σ}
    (h1 : 1 ≤ idx) (h2 : idx ≤ rs.st.vars) (hnz : rs.st.candidates idx ≠ 0)
    (h : fix_candidate cfg O ch idx rs = some (b, rs')) :
    StepTo cfg rs.st rs'.st ∧ (b = true → rs'.st.candidates idx = 0) ∧
    (b = false → rs'.st = rs.st) ∧
    (∀ q, q ≠ idx → rs'.st.candidates q = rs.st.candidates q) := by
  rcases lt_trichotomy (O.fixedFn rs.os (rs.st.candidates idx)).1 0 with
    hlt | hz0 | hgt
  · rw [fix_candidate_eq_neg hlt] at h
    obtain ⟨st4, hdc, he⟩ := Option.map_eq_some'.mp h
    injection he with hb hst
    subst hst
    obtain ⟨_, hcand, _⟩ := drop_candidate_some hdc
    refine ⟨StepTo_trans (drop_candidate_step h1 h2 hnz hdc)
      ⟨rfl, fun _ => Or.inl rfl, fun hi => Inv_statsfixed hi⟩,
      fun _ => ?_, fun e => Bool.noConfusion (hb.trans e), fun q hq => ?_⟩
    · show st4.candidates idx = 0
      rw [hcand]
      simp
    · show st4.candidates q = rs.st.candidates q
      rw [hcand]
      simp [hq]
  · rw [fix_candidate_eq_zero hz0] at h
    injection Option.some.inj h with hb hst
    subst hst
    exact ⟨StepTo_refl, fun e => Bool.noConfusion (hb.trans e),
      fun _ => rfl, fun _ _ => rfl⟩
  · rw [fix_candidate_eq_pos hgt] at h
    obtain ⟨⟨b0, st3⟩, hbv, he⟩ := Option.map_eq_some'.mp h
    injection he with hb hst
    subst hst
    have hstep := backbone_variable_step h1 h2 hnz hbv
    obtain ⟨_, _, hcand, _⟩ := backbone_variable_some hnz hbv
    refine ⟨StepTo_trans hstep.1
      ⟨rfl, fun _ => Or.inl rfl, fun hi => Inv_statsfixed hi⟩,
      fun _ => ?_, fun e => Bool.noConfusion (hb.trans e), fun q hq => ?_⟩
    · show st3.candidates idx = 0
      exact hstep.2
    · show st3.candidates q = rs.st.candidates q
      rw [hcand]
      simp [hq]

/-- The solve wrapper only touches the call counters and the model. -/
theorem solve_step {σ : Type} (cfg : Config) {O : Oracle σ}
    {a c : List Int} {rs : RS σ} {r : Int} {rs' : RS σ}
    (h : solve O a c rs = (r, rs')) :
    StepTo cfg rs.st rs'.st ∧ (r = 10 ∨ r = 20) ∧
    rs'.st.candidates = rs.st.candidates ∧
    rs'.st.fixed = rs.st.fixed ∧
    rs'.st.vars = rs.st.vars ∧
    rs'.st.out = rs.st.out ∧
    rs'.st.checkerLog = rs.st.checkerLog ∧
    rs'.st.stats.backbones = rs.st.stats.backbones ∧
    rs'.st.stats.dropped = rs.st.stats.dropped ∧
    rs'.st.stats.checked = rs.st.stats.checked ∧
    rs'.st.stats.calls_total = rs.st.stats.calls_total + 1 := by
  unfold solve at h
  split at h
  · injection h with h1 h2
    subst h2
    refine ⟨⟨rfl, fun _ => Or.inl rfl, fun hi =>
      ⟨hi.sum_eq, hi.fixed_count, hi.disjoint, hi.range_cand, hi.out_range,
       hi.out_lines, hi.out_print, hi.chk_len, hi.chk_dc⟩⟩,
      Or.inl h1.symm, rfl, rfl, rfl, rfl, rfl, rfl, rfl, rfl, rfl⟩
  · injection h with h1 h2
    subst h2
    refine ⟨⟨rfl, fun _ => Or.inl rfl, fun hi =>
      ⟨hi.sum_eq, hi.fixed_count, hi.disjoint, hi.range_cand, hi.out_range,
       hi.out_lines, hi.out_print, hi.chk_len, hi.chk_dc⟩⟩,
      Or.inr h1.symm, rfl, rfl, rfl, rfl, rfl, rfl, rfl, rfl, rfl⟩

/-- A literal of a variable with positive index is nonzero. -/
theorem litOf_ne_zero {m : Nat → Bool} {j : Nat} (h : 1 ≤ j) :
    litOf m j ≠ 0 := by
  unfold litOf
  split <;> omega

theorem filter_candidate_step {cfg : Config} {ch : Checker} {m : Nat → Bool}
    {idx : Nat} {st st' : St} (h1 : 1 ≤ idx) (h2 : idx ≤ st.vars)
    (h : filter_candidate cfg ch m idx st = some st') :
    StepTo cfg st st' ∧
    (∀ q, q ≠ idx → st'.candidates q = st.candidates q) ∧
    (st'.candidates idx = 0 ∨ st'.candidates idx = litOf m idx) ∧
    st'.fixed = st.fixed ∧ st'.out = st.out := by
  simp only [filter_candidate] at h
  split at h
  · rename_i hz
    have e := Option.some.inj h
    subst e
    exact ⟨StepTo_refl, fun _ _ => rfl, Or.inl hz, rfl, rfl⟩
  · split at h
    · rename_i hv
      have e := Option.some.inj h
      subst e
      exact ⟨StepTo_refl, fun _ _ => rfl, Or.inr hv, rfl, rfl⟩
    · rename_i hnz hne
      have hmid : StepTo cfg st { st with stats := { st.stats with
          filtered := st.stats.filtered + 1 } } :=
        ⟨rfl, fun _ => Or.inl rfl, fun hi =>
          ⟨hi.sum_eq, hi.fixed_count, hi.disjoint, hi.range_cand,
           hi.out_range, hi.out_lines, hi.out_print, hi.chk_len, hi.chk_dc⟩⟩
      obtain ⟨_, hcand, hf, ho, _⟩ := drop_candidate_some h
      refine ⟨StepTo_trans hmid (drop_candidate_step h1 h2 hnz h), ?_, ?_, hf, ho⟩
      · intro q hq
        rw [hcand]
        simp [hq]
      · left
        rw [hcand]
        simp

theorem filter_fold_step {cfg : Config} {ch : Checker} {m : Nat → Bool} :
    ∀ {L : List Nat} {st st' : St}, (∀ j ∈ L, 1 ≤ j ∧ j ≤ st.vars) →
    L.Nodup → filter_fold cfg ch m L st = some st' →
    StepTo cfg st st' ∧
    (∀ q, q ∉ L → st'.candidates q = st.candidates q) ∧
    (∀ j ∈ L, st'.candidates j = 0 ∨ st'.candidates j = litOf m j) ∧
    st'.fixed = st.fixed ∧ st'.out = st.out := by
  intro L
  induction L with
  | nil =>
    intro st st' _ _ h
    have e := Option.some.inj h
    subst e
    exact ⟨StepTo_refl, fun _ _ => rfl, fun j hj => absurd hj (by simp), rfl, rfl⟩
  | cons a L ih =>
    intro st st' hb hnd h
    simp only [filter_fold] at h
    split at h
    · cases h
    · rename_i st1 heq
      obtain ⟨s1, loc1, post1, hf1, ho1⟩ :=
        filter_candidate_step (hb a (by simp)).1 (hb a (by simp)).2 heq
      have hb2 : ∀ j ∈ L, 1 ≤ j ∧ j ≤ st1.vars := by
        intro j hj
        have := hb j (by simp [hj])
        exact ⟨this.1, by rw [s1.1]; exact this.2⟩
      obtain ⟨s2, loc2, post2, hf2, ho2⟩ :=
        ih hb2 (List.nodup_cons.mp hnd).2 h
      refine ⟨StepTo_trans s1 s2, ?_, ?_, hf2.trans hf1, ho2.trans ho1⟩
      · intro q hq
        have hqa : q ≠ a := fun e => hq (by simp [e])
        have hqL : q ∉ L := fun e => hq (by simp [e])
        rw [loc2 q hqL, loc1 q hqa]
      · intro j hj
        rcases List.mem_cons.mp hj with rfl | hjL
        · have hnotin : j ∉ L := (List.nodup_cons.mp hnd).1
          rw [loc2 j hnotin]
          exact post1
        · exact post2 j hjL

theorem filter_candidates_step {cfg : Config} {ch : Checker} {m : Nat → Bool}
    {start : Nat} {st st' : St} (h1 : 1 ≤ start)
    (h : filter_candidates cfg ch m start st = some st') :
    StepTo cfg st st' ∧
    (∀ q, q < start → st'.candidates q = st.candidates q) ∧
    st'.fixed = st.fixed ∧ st'.out = st.out ∧
    (cfg.no_filter = false → ∀ j, start ≤ j → j ≤ st.vars →
      ¬ falsifiedP m st'.candidates j) := by
  unfold filter_candidates at h
  split at h
  · rename_i hc
    have e := Option.some.inj h
    subst e
    refine ⟨StepTo_refl, fun _ _ => rfl, rfl, rfl, ?_⟩
    intro hnf j hj1 hj2
    rcases hc with hc | hc
    · rw [hnf] at hc
      exact absurd hc (by simp)
    · omega
  · rename_i hc
    have hb : ∀ j ∈ idx_list start (st.vars + 1 - start), 1 ≤ j ∧ j ≤ st.vars := by
      intro j hj
      rw [mem_idx_list] at hj
      omega
    obtain ⟨s1, loc, post, hf, ho⟩ :=
      filter_fold_step hb (idx_list_nodup _ _) h
    refine ⟨s1, ?_, hf, ho, ?_⟩
    · intro q hq
      refine loc q ?_
      rw [mem_idx_list]
      omega
    · intro hnf j hj1 hj2
      have hjm : j ∈ idx_list start (st.vars + 1 - start) := by
        rw [mem_idx_list]
        omega
      rcases post j hjm with hz | hv
      · intro hfp
        obtain ⟨hfz, _⟩ := hfp
        exact hfz hz
      · intro hfp
        obtain ⟨hfz, hfe⟩ := hfp
        rw [hv] at hfe
        have hne : litOf m j ≠ 0 := litOf_ne_zero (le_trans h1 hj1)
        omega

/-
Flip, collection, promotion and first-drop lemmas.
-/

theorem flip_pass_step {σ : Type} {cfg : Config} {O : Oracle σ}
    {ch : Checker} :
    ∀ {L : List Nat} {changed : Nat} {rs : RS σ} {c' : Nat} {rs' : RS σ}
    {n : Nat}, (∀ j ∈ L, 1 ≤ j ∧ j ≤ n) →
    flip_pass cfg O ch L changed rs = some (c', rs') →
    rs.st.vars = n →
    StepTo cfg rs.st rs'.st := by
  intro L
  induction L with
  | nil =>
    intro changed rs c' rs' n _ h _
    simp only [flip_pass] at h
    injection Option.some.inj h with _ h2
    subst h2
    exact StepTo_refl
  | cons a L ih =>
    intro changed rs c' rs' n hb h hvn
    simp only [flip_pass] at h
    split at h
    · exact ih (fun j hj => hb j (by simp [hj])) h hvn
    · rename_i hnz
      split at h
      · rename_i os heq
        have key := ih (fun j hj => hb j (by simp [hj])) h hvn
        exact key
      · rename_i m os heq
        split at h
        · cases h
        · rename_i st1 heq2
          have hmid : StepTo cfg rs.st { rs.st with stats := { rs.st.stats with
              flipped := rs.st.stats.flipped + 1 } } :=
            ⟨rfl, fun _ => Or.inl rfl, fun hi =>
              ⟨hi.sum_eq, hi.fixed_count, hi.disjoint, hi.range_cand,
               hi.out_range, hi.out_lines, hi.out_print, hi.chk_len, hi.chk_dc⟩⟩
          have hba := hb a (by simp)
          have hle : a ≤ rs.st.vars := by omega
          have s2 : StepTo cfg { rs.st with stats := { rs.st.stats with
              flipped := rs.st.stats.flipped + 1 } } st1 :=
            drop_candidate_step hba.1 hle hnz heq2
          have s3 := ih (fun j hj => hb j (by simp [hj])) h
            (by rw [(drop_candidate_some heq2).1]; exact hvn)
          exact StepTo_trans hmid (StepTo_trans s2 s3)

theorem flip_rounds_step {σ : Type} {cfg : Config} {O : Oracle σ}
    {ch : Checker} {start : Nat} (h1 : 1 ≤ start) :
    ∀ {fuel changed : Nat} {rs rs' : RS σ},
    flip_rounds cfg O ch start fuel changed rs = some rs' →
    StepTo cfg rs.st rs'.st := by
  intro fuel
  induction fuel with
  | zero => intro changed rs rs' h; cases h
  | succ fuel ih =>
    intro changed rs rs' h
    cases changed with
    | zero =>
      simp only [flip_rounds] at h
      have e := Option.some.inj h
      subst e
      exact StepTo_refl
    | succ c =>
      simp only [flip_rounds] at h
      split at h
      · cases h
      · rename_i c2 rs2 heq
        have hbl : ∀ j ∈ idx_list start (rs.st.vars + 1 - start),
            1 ≤ j ∧ j ≤ rs.st.vars := by
          intro j hj
          rw [mem_idx_list] at hj
          omega
        exact StepTo_trans (flip_pass_step hbl heq rfl) (ih h)

theorem try_to_flip_step {σ : Type} {cfg : Config} {O : Oracle σ}
    {ch : Checker} {start : Nat} {rs rs' : RS σ} (h1 : 1 ≤ start)
    (h : try_to_flip_remaining cfg O ch start rs = some rs') :
    StepTo cfg rs.st rs'.st := by
  unfold try_to_flip_remaining at h
  split at h
  · have e := Option.some.inj h
    subst e
    exact StepTo_refl
  · exact flip_rounds_step h1 h

theorem collect_constr_step {σ : Type} {cfg : Config} {O : Oracle σ}
    {ch : Checker} :
    ∀ {L : List Nat} {acc : List Int} {rs : RS σ} {c : List Int} {rs' : RS σ},
    (∀ j ∈ L, 1 ≤ j ∧ j ≤ rs.st.vars) →
    collect_constr cfg O ch L acc rs = some (c, rs') →
    StepTo cfg rs.st rs'.st ∧
    (∀ q, q ∉ L → rs'.st.candidates q = rs.st.candidates q) := by
  intro L
  induction L with
  | nil =>
    intro acc rs c rs' _ h
    simp only [collect_constr] at h
    injection Option.some.inj h with _ h2
    subst h2
    exact ⟨StepTo_refl, fun _ _ => rfl⟩
  | cons a L ih =>
    intro acc rs c rs' hb h
    simp only [collect_constr] at h
    split at h
    · obtain ⟨s1, loc⟩ := ih (fun j hj => hb j (by simp [hj])) h
      exact ⟨s1, fun q hq => loc q (fun e => hq (by simp [e]))⟩
    · rename_i hnz
      split at h
      · obtain ⟨s1, loc⟩ := ih (fun j hj => hb j (by simp [hj])) h
        exact ⟨s1, fun q hq => loc q (fun e => hq (by simp [e]))⟩
      · split at h
        · cases h
        · rename_i rs1 heq
          obtain ⟨s1, _, _, floc⟩ := fix_candidate_step (hb a (by simp)).1
            (hb a (by simp)).2 hnz heq
          have hb2 : ∀ j ∈ L, 1 ≤ j ∧ j ≤ rs1.st.vars := by
            intro j hj
            have := hb j (by simp [hj])
            exact ⟨this.1, by rw [s1.1]; exact this.2⟩
          obtain ⟨s2, loc2⟩ := ih hb2 h
          refine ⟨StepTo_trans s1 s2, fun q hq => ?_⟩
          have hqa : q ≠ a := fun e => hq (by simp [e])
          have hqL : q ∉ L := fun e => hq (by simp [e])
          rw [loc2 q hqL, floc q hqa]
        · rename_i rs1 heq
          obtain ⟨s1, _, _, floc⟩ := fix_candidate_step (hb a (by simp)).1
            (hb a (by simp)).2 hnz heq
          have hb2 : ∀ j ∈ L, 1 ≤ j ∧ j ≤ rs1.st.vars := by
            intro j hj
            have := hb j (by simp [hj])
            exact ⟨this.1, by rw [s1.1]; exact this.2⟩
          obtain ⟨s2, loc2⟩ := ih hb2 h
          refine ⟨StepTo_trans s1 s2, fun q hq => ?_⟩
          have hqa : q ≠ a := fun e => hq (by simp [e])
          have hqL : q ∉ L := fun e => hq (by simp [e])
          rw [loc2 q hqL, floc q hqa]

theorem bv_fold_step {cfg : Config} {ch : Checker} :
    ∀ {L : List Nat} {st st' : St},
    (∀ j ∈ L, 1 ≤ j ∧ j ≤ st.vars) → L.Nodup →
    bv_fold cfg ch L st = some st' →
    StepTo cfg st st' ∧
    (∀ j ∈ L, st'.candidates j = 0) ∧
    (∀ q, q ∉ L → st'.candidates q = st.candidates q ∧
      st'.fixed q = st.fixed q) ∧
    st'.stats.backbones = st.stats.backbones +
      countNonzero st.candidates L ∧
    st'.stats.dropped = st.stats.dropped ∧
    st'.vars = st.vars ∧
    (∀ j ∈ L, st.candidates j = 0 → st'.fixed j = st.fixed j) := by
  intro L
  induction L with
  | nil =>
    intro st st' _ _ h
    have e := Option.some.inj h
    subst e
    exact ⟨StepTo_refl, fun j hj => absurd hj (by simp),
      fun _ _ => ⟨rfl, rfl⟩, by simp [countNonzero], rfl, rfl,
      fun j hj => absurd hj (by simp)⟩
  | cons a L ih =>
    intro st st' hb hnd h
    simp only [bv_fold] at h
    split at h
    · cases h
    · rename_i b1 st1 heq
      have hnotin : a ∉ L := (List.nodup_cons.mp hnd).1
      by_cases hz : st.candidates a = 0
      · rw [backbone_variable_zero hz] at heq
        injection Option.some.inj heq with _ e1
        subst e1
        obtain ⟨s2, post, loc, hcount, hdrop, hvars, hfix⟩ :=
          ih (fun j hj => hb j (by simp [hj])) (List.nodup_cons.mp hnd).2 h
        refine ⟨s2, ?_, ?_, ?_, hdrop, hvars, ?_⟩
        · intro j hj
          rcases List.mem_cons.mp hj with rfl | hjL
          · rw [(loc j hnotin).1, hz]
          · exact post j hjL
        · intro q hq
          exact loc q (fun e => hq (by simp [e]))
        · rw [hcount]
          have hno : ¬ (st.candidates a ≠ 0) := by simp [hz]
          simp only [countNonzero, if_neg hno]
          omega
        · intro j hj hjz
          rcases List.mem_cons.mp hj with rfl | hjL
          · exact (loc j hnotin).2
          · exact hfix j hjL hjz
      · obtain ⟨_, hv1, hcand, hfx, _, hbb, hdd, _, _, _⟩ :=
          backbone_variable_some hz heq
        have hstep := (backbone_variable_step (hb a (by simp)).1
          (hb a (by simp)).2 hz heq).1
        have hb2 : ∀ j ∈ L, 1 ≤ j ∧ j ≤ st1.vars := by
          intro j hj
          have := hb j (by simp [hj])
          exact ⟨this.1, by rw [hv1]; exact this.2⟩
        obtain ⟨s2, post, loc, hcount, hdrop, hvars, hfix⟩ :=
          ih hb2 (List.nodup_cons.mp hnd).2 h
        refine ⟨StepTo_trans hstep s2, ?_, ?_, ?_, by rw [hdrop, hdd],
          by rw [hvars, hv1], ?_⟩
        · intro j hj
          rcases List.mem_cons.mp hj with rfl | hjL
          · rw [(loc j hnotin).1, hcand]
            simp
          · exact post j hjL
        · intro q hq
          have hqa : q ≠ a := fun e => hq (by simp [e])
          have hqL : q ∉ L := fun e => hq (by simp [e])
          obtain ⟨lc, lf⟩ := loc q hqL
          constructor
          · rw [lc, hcand]
            simp [hqa]
          · rw [lf, hfx]
            simp [hqa]
        · rw [hcount, hbb]
          have hcL : countNonzero st1.candidates L =
              countNonzero st.candidates L := by
            refine countNonzero_congr (fun j hj => ?_)
            rw [hcand]
            have : j ≠ a := fun e => hnotin (e ▸ hj)
            simp [this]
          rw [hcL]
          simp only [countNonzero, if_pos hz]
          omega
        · intro j hj hjz
          rcases List.mem_cons.mp hj with rfl | hjL
          · exact absurd hjz hz
          · have hja : j ≠ a := fun e => hnotin (e ▸ hjL)
            have h1f : st1.fixed j = st.fixed j := by
              rw [hfx]
              simp [hja]
            have h1c : st1.candidates j = 0 := by
              rw [hcand]
              simp [hja, hjz]
            rw [hfix j hjL h1c, h1f]

theorem backbone_variables_step {cfg : Config} {ch : Checker} {start : Nat}
    {st st' : St} (h1 : 1 ≤ start)
    (h : backbone_variables cfg ch start st = some st') :
    StepTo cfg st st' ∧
    (∀ j, start ≤ j → j ≤ st.vars → st'.candidates j = 0) ∧
    (∀ q, q < start → st'.candidates q = st.candidates q) ∧
    st'.stats.backbones = st.stats.backbones +
      countNonzero st.candidates (idx_list start (st.vars + 1 - start)) ∧
    st'.stats.dropped = st.stats.dropped ∧
    (∀ j, start ≤ j → j ≤ st.vars → st.candidates j = 0 →
      st'.fixed j = st.fixed j) := by
  unfold backbone_variables at h
  have hb : ∀ j ∈ idx_list start (st.vars + 1 - start),
      1 ≤ j ∧ j ≤ st.vars := by
    intro j hj
    rw [mem_idx_list] at hj
    omega
  obtain ⟨s1, post, loc, hcount, hdrop, _, hfix⟩ :=
    bv_fold_step hb (idx_list_nodup _ _) h
  refine ⟨s1, ?_, ?_, hcount, hdrop, ?_⟩
  · intro j hj1 hj2
    refine post j ?_
    rw [mem_idx_list]
    omega
  · intro q hq
    refine (loc q ?_).1
    rw [mem_idx_list]
    omega
  · intro j hj1 hj2 hjz
    refine hfix j ?_ hjz
    rw [mem_idx_list]
    omega

theorem dfc_scan_none_iff {m : Nat → Bool} {cand : Nat → Int} :
    ∀ {L : List Nat}, dfc_scan m cand L = none ↔
      ∀ j ∈ L, ¬ falsifiedP m cand j := by
  intro L
  induction L with
  | nil => simp [dfc_scan]
  | cons a L ih =>
    simp only [dfc_scan]
    split
    · rename_i hz
      rw [ih]
      constructor
      · intro hall j hj
        rcases List.mem_cons.mp hj with rfl | hjL
        · intro hfp
          exact hfp.1 hz
        · exact hall j hjL
      · intro hall j hj
        exact hall j (by simp [hj])
    · split
      · rename_i hnz hfe
        constructor
        · intro he; cases he
        · intro hall
          exact absurd ⟨hnz, hfe⟩ (hall a (by simp))
      · rename_i hnz hne
        rw [ih]
        constructor
        · intro hall j hj
          rcases List.mem_cons.mp hj with rfl | hjL
          · intro hfp
            exact hne hfp.2
          · exact hall j hjL
        · intro hall j hj
          exact hall j (by simp [hj])

theorem dfc_scan_some {m : Nat → Bool} {cand : Nat → Int} :
    ∀ {c s o : Nat}, dfc_scan m cand (idx_list s c) = some o →
      s ≤ o ∧ o < s + c ∧ falsifiedP m cand o ∧
      ∀ j, s ≤ j → j < o → ¬ falsifiedP m cand j := by
  intro c
  induction c with
  | zero => intro s o h; cases h
  | succ c ih =>
    intro s o h
    simp only [idx_list, dfc_scan] at h
    split at h
    · rename_i hz
      obtain ⟨ho1, ho2, hfp, hmin⟩ := ih h
      refine ⟨by omega, by omega, hfp, ?_⟩
      intro j hj1 hj2
      rcases Nat.eq_or_lt_of_le hj1 with rfl | hlt
      · intro hfp2
        exact hfp2.1 hz
      · exact hmin j hlt hj2
    · split at h
      · rename_i hnz hfe
        have e := Option.some.inj h
        subst e
        exact ⟨Nat.le_refl s, by omega, ⟨hnz, hfe⟩, fun j hj1 hj2 =>
          absurd (Nat.lt_of_le_of_lt hj1 hj2) (Nat.lt_irrefl _)⟩
      · rename_i hnz hne
        obtain ⟨ho1, ho2, hfp, hmin⟩ := ih h
        refine ⟨by omega, by omega, hfp, ?_⟩
        intro j hj1 hj2
        rcases Nat.eq_or_lt_of_le hj1 with rfl | hlt
        · intro hfp2
          exact hne hfp2.2
        · exact hmin j hlt hj2

theorem drop_first_candidate_some {cfg : Config} {ch : Checker}
    {m : Nat → Bool} {start : Nat} {st : St} {o : Nat} {st' : St}
    (h : drop_first_candidate cfg ch m start st = some (o, st')) :
    start ≤ o ∧ o ≤ st.vars ∧ falsifiedP m st.candidates o ∧
    (∀ j, start ≤ j → j < o → ¬ falsifiedP m st.candidates j) ∧
    drop_candidate cfg ch o st = some st' := by
  unfold drop_first_candidate at h
  split at h
  · cases h
  · rename_i o2 heq
    obtain ⟨ho1, ho2, hfp, hmin⟩ := dfc_scan_some heq
    split at h
    · cases h
    · rename_i st2 heq2
      injection Option.some.inj h with e1 e2
      subst e1
      subst e2
      exact ⟨ho1, by omega, hfp, hmin, heq2⟩

/-- Projection form of the solve lemma. -/
theorem solve_proj {σ : Type} (cfg : Config) (O : Oracle σ)
    (a c : List Int) (rs : RS σ) :
    StepTo cfg rs.st (solve O a c rs).2.st ∧
    ((solve O a c rs).1 = 10 ∨ (solve O a c rs).1 = 20) ∧
    (solve O a c rs).2.st.candidates = rs.st.candidates ∧
    (solve O a c rs).2.st.fixed = rs.st.fixed ∧
    (solve O a c rs).2.st.vars = rs.st.vars ∧
    (solve O a c rs).2.st.out = rs.st.out ∧
    (solve O a c rs).2.st.checkerLog = rs.st.checkerLog ∧
    (solve O a c rs).2.st.stats.backbones = rs.st.stats.backbones ∧
    (solve O a c rs).2.st.stats.dropped = rs.st.stats.dropped ∧
    (solve O a c rs).2.st.stats.checked = rs.st.stats.checked ∧
    (solve O a c rs).2.st.stats.calls_total = rs.st.stats.calls_total + 1 :=
  solve_step cfg rfl

/-- The one-by-one step preserves the invariant and decides idx. -/
theorem one_step_step {σ : Type} {cfg : Config} {O : Oracle σ}
    {ch : Checker} {idx : Nat} {lit : Int} {rs : RS σ} {last' : Int}
    {rs' : RS σ} (h1 : 1 ≤ idx) (h2 : idx ≤ rs.st.vars)
    (hlit : rs.st.candidates idx = lit) (hnz : lit ≠ 0)
    (h : one_step cfg O ch idx lit rs = some (last', rs')) :
    StepTo cfg rs.st rs'.st ∧ rs'.st.candidates idx = 0 := by
  simp only [one_step] at h
  obtain ⟨sv, _, hcandv, _, hvarsv, _⟩ :=
    solve_proj cfg O [-lit] [] rs
  split at h
  · split at h
    · cases h
    · rename_i st1 heq1
      split at h
      · cases h
      · rename_i st2 heq2
        obtain ⟨rs3, hfl, he⟩ := Option.map_eq_some'.mp h
        injection he with e1 e2
        subst e2
        have hd : StepTo cfg (solve O [-lit] [] rs).2.st st1 :=
          drop_candidate_step h1 (by rw [hvarsv]; exact h2)
            (by rw [hcandv, hlit]; exact hnz) heq1
        obtain ⟨hdv, hdcand, _⟩ := drop_candidate_some heq1
        obtain ⟨sf, locf, _, _, _⟩ := filter_candidates_step
          (by omega : 1 ≤ idx + 1) heq2
        have hfz : st2.candidates idx = 0 := by
          rw [locf idx (by omega), hdcand]
          simp
        have sft := try_to_flip_step (by omega : 1 ≤ idx + 1) hfl
        exact ⟨StepTo_trans sv (StepTo_trans hd (StepTo_trans sf sft)),
          StepTo_zero sft hfz⟩
  · obtain ⟨⟨b0, st1⟩, hbv, he⟩ := Option.map_eq_some'.mp h
    injection he with e1 e2
    subst e2
    have hstep := backbone_variable_step h1 (by rw [hvarsv]; exact h2)
      (by rw [hcandv, hlit]; exact hnz) hbv
    exact ⟨StepTo_trans sv hstep.1, hstep.2⟩

/-- The probes after a constrain model preserve the invariant. -/
theorem sat_probe_step_step {σ : Type} {cfg : Config} {O : Oracle σ}
    {ch : Checker} {idx : Nat} {rs rs' : RS σ} (h1 : 1 ≤ idx)
    (h : sat_probe_step cfg O ch idx rs = some rs') :
    StepTo cfg rs.st rs'.st := by
  unfold sat_probe_step at h
  split at h
  · cases h
  · rename_i other st1 heq1
    obtain ⟨ho1, ho2, hfp, _, hdc⟩ := drop_first_candidate_some heq1
    have hd : StepTo cfg rs.st st1 :=
      drop_candidate_step (by omega) ho2 hfp.1 hdc
    split at h
    · cases h
    · rename_i st2 heq2
      obtain ⟨sf, _⟩ := filter_candidates_step (by omega : 1 ≤ other + 1) heq2
      exact StepTo_trans hd (StepTo_trans sf (try_to_flip_step h1 h))

/-- The driver loop: any completed run preserves the invariant and leaves
no variable in 1..vars a candidate. -/
theorem driver_loop_prop {σ : Type} {cfg : Config} {O : Oracle σ}
    {ch : Checker} :
    ∀ {fuel idx : Nat} {last : Int} {rs rs' : RS σ},
    1 ≤ idx →
    (∀ j, 1 ≤ j → j < idx → rs.st.candidates j = 0) →
    driver_loop cfg O ch fuel idx last rs = some rs' →
    StepTo cfg rs.st rs'.st ∧
    (∀ j, 1 ≤ j → j ≤ rs'.st.vars → rs'.st.candidates j = 0) := by
  intro fuel
  induction fuel with
  | zero => intro idx last rs rs' _ _ h; cases h
  | succ fuel ih =>
    intro idx last rs rs' hidx hP h
    simp only [driver_loop] at h
    split at h
    · rename_i hgt
      have e := Option.some.inj h
      subst e
      exact ⟨StepTo_refl, fun j hj1 hj2 => hP j hj1 (by omega)⟩
    · rename_i hgt
      have hle : idx ≤ rs.st.vars := by omega
      split at h
      · rename_i hz
        refine ih (by omega) ?_ h
        intro j hj1 hj2
        rcases Nat.lt_succ_iff_lt_or_eq.mp hj2 with hlt | rfl
        · exact hP j hj1 hlt
        · exact hz
      · rename_i hnz
        split at h
        · cases h
        · rename_i rs1 heq
          have hfix : StepTo cfg rs.st rs1.st ∧ rs1.st.candidates idx = 0 := by
            by_cases hnf : cfg.no_fixed
            · rw [if_pos hnf] at heq
              injection Option.some.inj heq with e1 _
              exact absurd e1 (by simp)
            · rw [if_neg hnf] at heq
              have := fix_candidate_step hidx hle hnz heq
              exact ⟨this.1, this.2.1 rfl⟩
          obtain ⟨s1, post1⟩ := ih (by omega) (fun j hj1 hj2 => by
            rcases Nat.lt_succ_iff_lt_or_eq.mp hj2 with hlt | rfl
            · exact StepTo_zero hfix.1 (hP j hj1 hlt)
            · exact hfix.2) h
          exact ⟨StepTo_trans hfix.1 s1, post1⟩
        · rename_i rs1 heq
          have hst1 : rs1.st = rs.st := by
            by_cases hnf : cfg.no_fixed
            · rw [if_pos hnf] at heq
              injection Option.some.inj heq with _ e2
              rw [← e2]
            · rw [if_neg hnf] at heq
              exact (fix_candidate_step hidx hle hnz heq).2.2.1 rfl
          have s0 : StepTo cfg rs.st rs1.st := by
            rw [hst1]
            exact StepTo_refl
          split at h
          · -- constrain branch
            split at h
            · cases h
            · rename_i constr rs2 heqc
              have hbc : ∀ j ∈ idx_list (idx+1) (rs1.st.vars - idx),
                  1 ≤ j ∧ j ≤ rs1.st.vars := by
                intro j hj
                rw [mem_idx_list] at hj
                omega
              obtain ⟨sc, locc⟩ := collect_constr_step hbc heqc
              have s02 : StepTo cfg rs.st rs2.st := StepTo_trans s0 sc
              have hc2 : rs2.st.candidates idx = rs.st.candidates idx := by
                rw [locc idx (by rw [mem_idx_list]; omega), hst1]
              split at h
              · -- at least two literals: constrain solve
                obtain ⟨sq, _, hcq, _, hvq, _⟩ := solve_proj cfg O [] constr rs2
                have s03 : StepTo cfg rs.st (solve O [] constr rs2).2.st :=
                  StepTo_trans s02 sq
                split at h
                · -- SAT: probes, then retry or advance
                  split at h
                  · cases h
                  · rename_i rs3 heqp
                    have sp := sat_probe_step_step hidx heqp
                    have s04 : StepTo cfg rs.st rs3.st := StepTo_trans s03 sp
                    split at h
                    · -- retry the same idx
                      obtain ⟨s5, post⟩ := ih hidx (fun j hj1 hj2 =>
                        StepTo_zero s04 (hP j hj1 hj2)) h
                      exact ⟨StepTo_trans s04 s5, post⟩
                    · -- advance
                      rename_i hzz
                      obtain ⟨s5, post⟩ := ih (by omega) (fun j hj1 hj2 => by
                        rcases Nat.lt_succ_iff_lt_or_eq.mp hj2 with hlt | rfl
                        · exact StepTo_zero s04 (hP j hj1 hlt)
                        · exact not_not.mp hzz) h
                      exact ⟨StepTo_trans s04 s5, post⟩
                · -- UNSAT: promote all remaining candidates and stop
                  split at h
                  · cases h
                  · rename_i st3 heqb
                    have e := Option.some.inj h
                    subst e
                    obtain ⟨sb, postb, locb, hcnt, hdr, hfx2⟩ :=
                      backbone_variables_step hidx heqb
                    refine ⟨StepTo_trans s03 sb, ?_⟩
                    intro j hj1 hj2
                    show st3.candidates j = 0
                    have hv3 : st3.vars = (solve O [] constr rs2).2.st.vars :=
                      sb.1
                    by_cases hji : j < idx
                    · rw [locb j hji]
                      exact StepTo_zero s03 (hP j hj1 hji)
                    · exact postb j (by omega) (by
                        rw [← hv3]
                        exact hj2)
              · -- only one literal collected: fall through to the
                -- assumption step on the state after collection
                split at h
                · cases h
                · rename_i last2 rs3 heqo
                  have hos := one_step_step hidx
                    (by rw [s02.1.symm] at hle; exact hle)
                    hc2 (by rw [hc2] at *; exact hnz) heqo
                  obtain ⟨s5, post⟩ := ih (by omega) (fun j hj1 hj2 => by
                    rcases Nat.lt_succ_iff_lt_or_eq.mp hj2 with hlt | rfl
                    · exact StepTo_zero (StepTo_trans s02 hos.1) (hP j hj1 hlt)
                    · exact hos.2) h
                  exact ⟨StepTo_trans s02 (StepTo_trans hos.1 s5), post⟩
          · -- direct assumption step
            split at h
            · cases h
            · rename_i last2 rs3 heqo
              have hc1 : rs1.st.candidates idx = rs.st.candidates idx := by
                rw [hst1]
              have hos := one_step_step hidx (by rw [s0.1.symm] at hle; exact hle)
                hc1 (by rw [hc1] at *; exact hnz) heqo
              obtain ⟨s5, post⟩ := ih (by omega) (fun j hj1 hj2 => by
                rcases Nat.lt_succ_iff_lt_or_eq.mp hj2 with hlt | rfl
                · exact StepTo_zero (StepTo_trans s0 hos.1) (hP j hj1 hlt)
                · exact hos.2) h
              exact ⟨StepTo_trans s0 (StepTo_trans hos.1 s5), post⟩

/-- The candidate store initialized from the first model satisfies the
invariant, provided the counters and logs are still at their initial
values. -/
theorem Inv_init {cfg : Config} {m : Nat → Bool} {st : St}
    (hb : st.stats.backbones = 0) (hd : st.stats.dropped = 0)
    (hk : st.stats.checked = 0) (ho : st.out = [])
    (hl : st.checkerLog = []) :
    Inv cfg (init_candidates m st) := by
  constructor
  · show st.stats.backbones + st.stats.dropped +
      countCand (init_candidates m st) = st.vars
    have hall : ∀ j ∈ idx_list 1 st.vars,
        (init_candidates m st).candidates j ≠ 0 := by
      intro j hj
      rw [mem_idx_list] at hj
      show (if 1 ≤ j ∧ j ≤ st.vars then litOf m j else 0) ≠ 0
      rw [if_pos ⟨hj.1, by omega⟩]
      exact litOf_ne_zero hj.1
    unfold countCand
    rw [show (init_candidates m st).vars = st.vars from rfl,
      countNonzero_all_of hall, idx_list_length]
    omega
  · show countFixed (init_candidates m st) = st.stats.backbones
    unfold countFixed
    exact (countNonzero_zero_of (fun j _ => rfl)).trans hb.symm
  · intro j _
    rfl
  · intro j
    show (if 1 ≤ j ∧ j ≤ st.vars then litOf m j else 0) = 0 ∨
      (if 1 ≤ j ∧ j ≤ st.vars then litOf m j else 0) = (j : Int) ∨
      (if 1 ≤ j ∧ j ≤ st.vars then litOf m j else 0) = -(j : Int)
    by_cases hr : 1 ≤ j ∧ j ≤ st.vars
    · rw [if_pos hr]
      unfold litOf
      split
      · right; left; rfl
      · right; right; rfl
    · rw [if_neg hr]
      left
      rfl
  · intro j hj
    refine ⟨?_, rfl⟩
    have hj2 : ¬(1 ≤ j ∧ j ≤ st.vars) := hj
    show (if 1 ≤ j ∧ j ≤ st.vars then litOf m j else 0) = 0
    rw [if_neg hj2]
  · intro l hl2
    rw [show (init_candidates m st).out = st.out from rfl, ho] at hl2
    cases hl2
  · intro _
    rw [show (init_candidates m st).out = st.out from rfl, ho]
  · intro _
    rw [show (init_candidates m st).checkerLog = st.checkerLog from rfl, hl,
      show (init_candidates m st).stats.checked = st.stats.checked from rfl,
      hk]
    rfl
  · intro _
    show st.stats.checked = st.stats.dropped + st.stats.backbones
    omega

theorem finish_run_some {cfg : Config} {vars : Nat} {st : St} {r : Nat}
    {st' : St} (h : finish_run cfg vars st = some (r, st')) :
    r = 10 ∧
    st'.out = st.out ++ (if cfg.print then [Line.b 0] else []) ++ [Line.sat] ∧
    st'.candidates = st.candidates ∧ st'.fixed = st.fixed ∧
    st'.stats = st.stats ∧ st'.checkerLog = st.checkerLog ∧
    st'.vars = st.vars ∧
    (cfg.check = true → st.stats.checked = vars) := by
  simp only [finish_run] at h
  split at h
  · cases h
  · rename_i hcond
    injection Option.some.inj h with e1 e2
    subst e2
    refine ⟨e1.symm, rfl, rfl, rfl, rfl, rfl, rfl, ?_⟩
    intro hc
    by_contra hne
    exact hcond ⟨hc, hne⟩

theorem finish_run_none {cfg : Config} {vars : Nat} {st : St}
    (hc : cfg.check = true) (hne : st.stats.checked ≠ vars) :
    finish_run cfg vars st = none := by
  simp only [finish_run]
  rw [if_pos ⟨hc, hne⟩]

/-- Shape of a completed run: either the UNSAT verdict with empty counters,
or a satisfiable run whose driver exit state satisfies the invariant with
no candidate left. -/
theorem main_run_shape {σ : Type} {cfg : Config} {O : Oracle σ}
    {ch : Checker} {os : σ} {vars fuel : Nat} {r : Nat} {st : St}
    (h : main_run cfg O ch os vars fuel = some (r, st)) :
    (r = 20 ∧ st.out = [Line.unsat] ∧ st.stats.backbones = 0 ∧
      st.stats.dropped = 0 ∧ st.vars = vars) ∨
    (r = 10 ∧ ∃ sd : St, Inv cfg sd ∧ sd.vars = vars ∧
      (∀ j, 1 ≤ j → j ≤ vars → sd.candidates j = 0) ∧
      st.out = sd.out ++ (if cfg.print then [Line.b 0] else []) ++ [Line.sat] ∧
      st.stats = sd.stats ∧ st.candidates = sd.candidates ∧
      st.fixed = sd.fixed ∧ st.checkerLog = sd.checkerLog ∧
      st.vars = vars ∧
      (cfg.check = true → sd.stats.checked = vars)) := by
  obtain ⟨_, _, _, _, hvv, hoo, hll, hbb, hdd, hkk, _⟩ :=
    solve_proj cfg O [] [] (rs_init os vars)
  simp only [main_run] at h
  split at h
  · right
    split at h
    · cases h
    · rename_i rs2 heqf
      split at h
      · cases h
      · rename_i rs3 heqd
        obtain ⟨e10, ho, hc, hf, hs, hlog, hv, hch⟩ := finish_run_some h
        have hInvInit : Inv cfg (init_candidates
            (solve O [] [] (rs_init os vars)).2.model
            (solve O [] [] (rs_init os vars)).2.st) :=
          Inv_init hbb hdd hkk hoo hll
        have sflip := try_to_flip_step (by omega : (1:Nat) ≤ 1) heqf
        obtain ⟨sdrv, postd⟩ := driver_loop_prop (by omega)
          (fun j hj1 hj2 => absurd hj1 (by omega)) heqd
        have hInv3 : Inv cfg rs3.st := sdrv.2.2 (sflip.2.2 hInvInit)
        have hv3 : rs3.st.vars = vars := by
          rw [sdrv.1, sflip.1]
          exact hvv
        refine ⟨e10, rs3.st, hInv3, hv3, ?_, ho, hs, hc, hf, hlog,
          hv.trans hv3, hch⟩
        intro j hj1 hj2
        exact postd j hj1 (by omega)
  · left
    injection Option.some.inj h with e1 e2
    subst e2
    refine ⟨e1.symm, ?_, hbb, hdd, hvv⟩
    show (solve O [] [] (rs_init os vars)).2.st.out ++ [Line.unsat] =
      [Line.unsat]
    rw [hoo]
    rfl

/-
Claim theorems.
-/

/-- Claim C1 (code bug): the flip loop of try_to_flip_remaining is written
as for (round = 1, changed = 1; changed; round++, changed = 0), whose
update clause resets changed to 0 before the condition is re-tested, so the
loop performs exactly one pass instead of iterating to a fixpoint.  On an
oracle where flipping literal 2 enables flipping literal 1, the single pass
drops only variable 2 and leaves variable 1 a candidate (first and third
conjuncts), although one further full pass still succeeds in flipping and
dropping variable 1 (second conjunct), contradicting the specified
"continue rounds until a full round yields no successful flip". -/
theorem flip_loop_single_round :
    (try_to_flip_remaining default_config flipO ch0 1 rs2).map (fun r =>
      ((idx_list 1 2).map r.st.candidates, r.st.stats.dropped,
       r.st.stats.flipped)) = some ([1, 0], 1, 1) ∧
    ((try_to_flip_remaining default_config flipO ch0 1 rs2).bind (fun r =>
      (flip_pass default_config flipO ch0 (idx_list 1 2) 0 r).map (fun p =>
        (p.1, (idx_list 1 2).map p.2.st.candidates)))) = some (1, [0, 0]) ∧
    try_to_flip_remaining default_config flipO ch0 1 rs2 =
      (flip_pass default_config flipO ch0 (idx_list 1 2) 1 rs2).map
        (fun p => p.2) :=
  ⟨by decide, by decide, rfl⟩

/-- Claim C2, counterexample: on p cnf 3 3 with unit clauses 1, 2, 3 the
default constrain-mode run makes three solver calls in total, i.e. two SAT
calls after the first model, not one as claimed: since last is initialized
to SAT, the first candidate is settled by the assumption step before the
constrain branch can fire. -/
theorem constrain_units_not_one_call :
    run3.map (fun p => (p.1, p.2.stats.calls_total)) = some (10, 3) ∧
    ¬ ((3 : Nat) - 1 = 1) :=
  ⟨by decide, by decide⟩

/-- Claim C2, amended: on p cnf 3 3 / 1 0 / 2 0 / 3 0 the run takes exactly
two SAT calls after the first model: one UNSAT assumption call promoting
variable 1, after which last records UNSAT and a single constrain call
settles the remaining candidates 2 and 3 at once; all three variables are
classified backbones and the run exits 10. -/
theorem constrain_units_two_calls :
    run3.map (fun p => (p.1, p.2.stats.calls_total, p.2.stats.calls_sat,
      p.2.stats.calls_unsat, p.2.stats.backbones, p.2.stats.dropped,
      p.2.out)) =
    some (10, 3, 1, 2, 3, 0,
      [Line.b 1, Line.b 2, Line.b 3, Line.b 0, Line.sat]) := rfl

/-- Claim C9: backbone_variable on an already-decided variable returns
false and leaves the state untouched, so the mass promotion
backbone_variables counts exactly the still-open candidates: the backbones
counter grows by the number of nonzero candidate entries in the range, the
dropped counter is unchanged, and the fixed entry of every already-decided
variable in the range is left alone. -/
theorem backbone_variable_skip_spec :
    (∀ (cfg : Config) (ch : Checker) (idx : Nat) (st : St),
      st.candidates idx = 0 →
      backbone_variable cfg ch idx st = some (false, st)) ∧
    (∀ (cfg : Config) (ch : Checker) (start : Nat) (st st' : St),
      1 ≤ start → backbone_variables cfg ch start st = some st' →
      st'.stats.backbones = st.stats.backbones +
        countNonzero st.candidates (idx_list start (st.vars + 1 - start)) ∧
      st'.stats.dropped = st.stats.dropped ∧
      (∀ j, start ≤ j → j ≤ st.vars → st.candidates j = 0 →
        st'.fixed j = st.fixed j)) := by
  constructor
  · intro cfg ch idx st h
    exact backbone_variable_zero h
  · intro cfg ch start st st' h1 h
    obtain ⟨_, _, _, hcount, hdrop, hfix⟩ := backbone_variables_step h1 h
    exact ⟨hcount, hdrop, hfix⟩

/-- Witness for C9 at concrete inputs: an all-zero store is skipped
unchanged, and promoting from a store initialized from the all-true model
over two variables adds exactly the two open candidates. -/
theorem backbone_variable_skip_witness :
    backbone_variable default_config ch0 1 (init_state 2) =
      some (false, init_state 2) ∧
    ((backbone_variables default_config ch0 1
        (init_candidates (fun _ => true) (init_state 2))).getD
        (init_state 0)).stats.backbones =
      (init_candidates (fun _ => true) (init_state 2)).stats.backbones +
        countNonzero
          (init_candidates (fun _ => true) (init_state 2)).candidates
          (idx_list 1
            ((init_candidates (fun _ => true) (init_state 2)).vars + 1 - 1)) := by
  refine ⟨backbone_variable_skip_spec.1 default_config ch0 1 (init_state 2)
    rfl, ?_⟩
  exact (backbone_variable_skip_spec.2 default_config ch0 1
    (init_candidates (fun _ => true) (init_state 2))
    ((backbone_variables default_config ch0 1
      (init_candidates (fun _ => true) (init_state 2))).getD (init_state 0))
    (by omega) rfl).1

/-- Claim C10: when the DIMACS reader reports exactly INT_MAX = 2^31 - 1
variables, the program dies with exit code 1 before any solver call: the
returned state carries zero solver calls and no output. -/
theorem intmax_vars_rejected :
    ∀ {σ : Type} (args : List String) (cfg : Config) (p : Option String)
    (O : Oracle σ) (ch : Checker) (os : σ) (fuel : Nat),
    parse_args args default_config none = ParseOut.run cfg p →
    cadiback_main args (some 2147483647) O ch os fuel =
      some (1, init_state 2147483647) ∧
    (init_state 2147483647).stats.calls_total = 0 ∧
    (init_state 2147483647).out = [] := by
  intro σ args cfg p O ch os fuel hp
  refine ⟨?_, rfl, rfl⟩
  simp only [cadiback_main, hp, if_true]

/-- Witness for C10: the empty command line parses to the default
configuration, and a parse result of INT_MAX variables exits 1 with no
solver call. -/
theorem intmax_vars_rejected_witness :
    cadiback_main ([] : List String) (some 2147483647) O3 ch0 () 5 =
      some (1, init_state 2147483647) ∧
    (init_state 2147483647).stats.calls_total = 0 := by
  have w := intmax_vars_rejected ([] : List String) default_config none O3
    ch0 () 5 rfl
  exact ⟨w.1, w.2.1⟩

/-- Claim C3: the counters partition the variables: whenever the data
invariant holds, backbones + dropped + remaining equals vars, and the
invariant is preserved by every drop and every promotion (so it holds at
every point of the refinement loop); at the exit of a completed satisfiable
run remaining is zero, every variable 1..n has a cleared candidate entry,
and the fixed array is nonzero for exactly the counted backbones, the rest
being the dropped ones. -/
theorem partition_invariant :
    (∀ (cfg : Config) (st : St), Inv cfg st →
      st.stats.backbones + st.stats.dropped + remaining_candidates st =
        st.vars) ∧
    (∀ (cfg : Config) (ch : Checker) (idx : Nat) (st st' : St),
      1 ≤ idx → idx ≤ st.vars → st.candidates idx ≠ 0 → Inv cfg st →
      drop_candidate cfg ch idx st = some st' → Inv cfg st') ∧
    (∀ (cfg : Config) (ch : Checker) (idx : Nat) (b : Bool) (st st' : St),
      1 ≤ idx → idx ≤ st.vars → Inv cfg st →
      backbone_variable cfg ch idx st = some (b, st') → Inv cfg st') ∧
    (∀ (σ : Type) (cfg : Config) (O : Oracle σ) (ch : Checker) (os : σ)
      (vars fuel : Nat) (st : St),
      main_run cfg O ch os vars fuel = some (10, st) →
      st.vars = vars ∧
      remaining_candidates st = 0 ∧
      st.stats.backbones + st.stats.dropped = vars ∧
      (∀ v, 1 ≤ v → v ≤ vars → st.candidates v = 0) ∧
      countFixed st = st.stats.backbones ∧
      vars - st.stats.backbones = st.stats.dropped) := by
  refine ⟨?_, ?_, ?_, ?_⟩
  · intro cfg st hi
    have := hi.sum_eq
    unfold remaining_candidates
    omega
  · intro cfg ch idx st st' h1 h2 hnz hi h
    exact (drop_candidate_step h1 h2 hnz h).2.2 hi
  · intro cfg ch idx b st st' h1 h2 hi h
    by_cases hz : st.candidates idx = 0
    · rw [backbone_variable_zero hz] at h
      injection Option.some.inj h with _ e2
      rw [← e2]
      exact hi
    · exact ((backbone_variable_step h1 h2 hz h).1).2.2 hi
  · intro σ cfg O ch os vars fuel st h
    rcases main_run_shape h with ⟨he, _⟩ | ⟨_, sd, hi, hv, hz, ho, hs, hc,
      hf, _, hstv, _⟩
    · exact absurd he (by omega)
    · have hcc : countCand sd = 0 := by
        unfold countCand
        refine countNonzero_zero_of ?_
        intro j hj
        rw [mem_idx_list] at hj
        exact hz j hj.1 (by omega)
      have hsum := hi.sum_eq
      rw [hcc, hv] at hsum
      have hbb : st.stats.backbones = sd.stats.backbones := by rw [hs]
      have hdd : st.stats.dropped = sd.stats.dropped := by rw [hs]
      refine ⟨hstv, ?_, by omega, ?_, ?_, by omega⟩
      · unfold remaining_candidates
        omega
      · intro v hv1 hv2
        rw [hc]
        exact hz v hv1 hv2
      · unfold countFixed
        rw [hf, hstv, ← hv, hbb]
        exact hi.fixed_count

/-- Witness for C3: the completed run on the three unit clauses has no
remaining candidate, three backbones plus zero dropped, and the fixed
array counts the backbones. -/
theorem partition_invariant_witness :
    remaining_candidates ((run3.getD (0, init_state 0)).2) = 0 ∧
    ((run3.getD (0, init_state 0)).2).stats.backbones +
      ((run3.getD (0, init_state 0)).2).stats.dropped = 3 ∧
    countFixed ((run3.getD (0, init_state 0)).2) =
      ((run3.getD (0, init_state 0)).2).stats.backbones := by
  have w := partition_invariant.2.2.2 Unit default_config O3 ch0 () 3 10
    ((run3.getD (0, init_state 0)).2) rfl
  exact ⟨w.2.1, w.2.2.1, w.2.2.2.2.1⟩

/-- Claim C8: the scan of drop_first_candidate (whose bound is only an
assertion) succeeds exactly under its implicit precondition: if some index
in the range carries a candidate literal falsified by the model, the least
such index is found, dropped and returned; if no index in start..vars
qualifies, the scan leaves the range and the function yields none (the
modelled assertion failure). -/
theorem drop_first_candidate_spec :
    (∀ (cfg : Config) (ch : Checker) (m : Nat → Bool) (start : Nat)
      (st : St), 1 ≤ start → cfg.check = false →
      (∃ j, start ≤ j ∧ j ≤ st.vars ∧ falsifiedP m st.candidates j) →
      ∃ o st', drop_first_candidate cfg ch m start st = some (o, st') ∧
        start ≤ o ∧ o ≤ st.vars ∧ falsifiedP m st.candidates o ∧
        (∀ j, start ≤ j → j < o → ¬ falsifiedP m st.candidates j) ∧
        st'.candidates o = 0 ∧
        st'.stats.dropped = st.stats.dropped + 1) ∧
    (∀ (cfg : Config) (ch : Checker) (m : Nat → Bool) (start : Nat)
      (st : St),
      (∀ j, start ≤ j → j ≤ st.vars → ¬ falsifiedP m st.candidates j) →
      drop_first_candidate cfg ch m start st = none) := by
  constructor
  · intro cfg ch m start st h1 hcf hex
    cases hscan : dfc_scan m st.candidates
        (idx_list start (st.vars + 1 - start)) with
    | none =>
      exfalso
      obtain ⟨j, hj1, hj2, hfp⟩ := hex
      exact (dfc_scan_none_iff.mp hscan j (by rw [mem_idx_list]; omega)) hfp
    | some o =>
      obtain ⟨ho1, ho2, hfp, hmin⟩ := dfc_scan_some hscan
      have hdc : drop_candidate cfg ch o st = some { st with
          candidates := fun j => if j = o then 0 else st.candidates j,
          stats := { st.stats with dropped := st.stats.dropped + 1 } } := by
        unfold drop_candidate
        rw [if_neg (by simp [hcf])]
      refine ⟨o, { st with
          candidates := fun j => if j = o then 0 else st.candidates j,
          stats := { st.stats with dropped := st.stats.dropped + 1 } },
        ?_, ho1, by omega, hfp, hmin, by simp, rfl⟩
      simp only [drop_first_candidate, hscan, hdc]
  · intro cfg ch m start st hall
    have hnone : dfc_scan m st.candidates
        (idx_list start (st.vars + 1 - start)) = none := by
      refine dfc_scan_none_iff.mpr ?_
      intro j hj
      rw [mem_idx_list] at hj
      exact hall j hj.1 (by omega)
    simp only [drop_first_candidate, hnone]

/-- Witness for C8: the scan succeeds on the F1 constrain model (index 3
is falsified) and yields none on a state whose model agrees with every
candidate. -/
theorem drop_first_candidate_spec_witness :
    (drop_first_candidate default_config ch0 w5q.2.model 2
      w5q.2.st).isSome = true ∧
    drop_first_candidate default_config ch0 (fun _ => true) 1 rs2.st =
      none := by
  constructor
  · obtain ⟨o, st', heq, _⟩ := drop_first_candidate_spec.1 default_config
      ch0 w5q.2.model 2 w5q.2.st (by omega) rfl
      ⟨3, by decide, by decide, by decide⟩
    rw [heq]
    rfl
  · refine drop_first_candidate_spec.2 default_config ch0 (fun _ => true) 1
      rs2.st ?_
    intro j h1 h2
    have hv : rs2.st.vars = 2 := rfl
    rw [hv] at h2
    have h3 : j = 1 ∨ j = 2 := by omega
    rcases h3 with rfl | rfl <;> decide

/-- Claim C4 counterexample: with printing suppressed the satisfiable run
emits no b 0 terminator at all, only the verdict line, contradicting the
unconditional terminator of the claim. -/
theorem no_print_terminator_missing :
    run3np.map (fun p => (p.1, p.2.out)) = some (10, [Line.sat]) ∧
    Line.b 0 ∉ [Line.sat] := by
  exact ⟨rfl, by decide⟩

/-- Claim C4 amended: every completed run emits exactly one verdict line,
placed last after all b lines, and the b 0 terminator appears exactly when
a model was found and printing is enabled. -/
theorem verdict_emission {σ : Type} (cfg : Config) (O : Oracle σ)
    (ch : Checker) (os : σ) (vars fuel r : Nat) (st : St)
    (h : main_run cfg O ch os vars fuel = some (r, st)) :
    List.countP is_verdict st.out = 1 ∧
    (∃ pre, st.out = pre ++ [if r = 10 then Line.sat else Line.unsat] ∧
      ∀ l ∈ pre, is_verdict l = false) ∧
    (Line.b 0 ∈ st.out ↔ r = 10 ∧ cfg.print = true) := by
  rcases main_run_shape h with ⟨e20, ho, _⟩ | ⟨e10, sd, hi, _, _, ho, _⟩
  · subst e20
    refine ⟨by rw [ho]; rfl, ⟨[], by rw [ho]; rfl, by intro l hl; cases hl⟩,
      ?_⟩
    rw [ho]
    constructor
    · intro hmem
      exact absurd hmem (by decide)
    · rintro ⟨h10, _⟩
      exact absurd h10 (by omega)
  · subst e10
    have hb : ∀ l ∈ sd.out, is_verdict l = false := by
      intro l hl
      obtain ⟨z, _, rfl⟩ := hi.out_lines l hl
      rfl
    have hb0 : Line.b 0 ∉ sd.out := by
      intro hmem
      obtain ⟨z, hz0, he⟩ := hi.out_lines _ hmem
      injection he with hzz
      exact hz0 hzz.symm
    refine ⟨?_, ?_, ?_⟩
    · rw [ho]
      simp only [List.countP_append]
      have h1 : sd.out.countP is_verdict = 0 := by
        refine List.countP_eq_zero.mpr ?_
        intro a ha
        simp [hb a ha]
      have h2 : (if cfg.print = true then [Line.b 0] else []).countP
          is_verdict = 0 := by
        split <;> rfl
      rw [h1, h2]
      rfl
    · refine ⟨sd.out ++ (if cfg.print = true then [Line.b 0] else []),
        ?_, ?_⟩
      · rw [ho]
        simp [List.append_assoc]
      · intro l hl
        rcases List.mem_append.mp hl with h1 | h2
        · exact hb l h1
        · revert h2
          split
          · intro h2
            simp only [List.mem_singleton] at h2
            subst h2
            rfl
          · intro h2
            cases h2
    · rw [ho]
      constructor
      · intro hmem
        rcases List.mem_append.mp hmem with h1 | h2
        · rcases List.mem_append.mp h1 with h3 | h4
          · exact absurd h3 hb0
          · revert h4
            split
            · intro _
              exact ⟨rfl, by assumption⟩
            · intro h4
              cases h4
        · exact absurd h2 (by decide)
      · rintro ⟨_, hp⟩
        rw [hp]
        simp

/-- Witness for C4 amended: the printing run on the three unit clauses has
exactly one verdict line and contains the b 0 terminator. -/
theorem verdict_emission_witness :
    List.countP is_verdict ((run3.getD (0, init_state 0)).2).out = 1 ∧
    (Line.b 0 ∈ ((run3.getD (0, init_state 0)).2).out ↔
      (10 = 10 ∧ default_config.print = true)) := by
  have w := verdict_emission default_config O3 ch0 () 3 10 10
    ((run3.getD (0, init_state 0)).2) rfl
  exact ⟨w.1, w.2.2⟩

/-- Claim C6: with checking enabled, a dropped candidate requires the
checker to find a model under the negated candidate (SAT answer 10), a
promoted backbone requires the checker to refute the negated literal
(UNSAT answer 20), each such call is logged and counted exactly once, a
final checked count different from vars is the fatal abort, and a completed
satisfiable checked run has performed exactly vars checker interactions. -/
theorem checker_discipline :
    (∀ (ch : Checker) (lit : Int) (st : St),
      (check_model ch lit st).isSome = true ↔
        ch st.stats.checked lit = 10) ∧
    (∀ (ch : Checker) (lit : Int) (st : St),
      (check_backbone ch lit st).isSome = true ↔
        ch st.stats.checked (-lit) = 20) ∧
    (∀ (cfg : Config) (ch : Checker) (idx : Nat) (st st' : St),
      cfg.check = true → drop_candidate cfg ch idx st = some st' →
      st'.checkerLog = st.checkerLog ++
        [Chk.model (-(st.candidates idx))] ∧
      ch st.stats.checked (-(st.candidates idx)) = 10 ∧
      st'.stats.checked = st.stats.checked + 1) ∧
    (∀ (cfg : Config) (ch : Checker) (idx : Nat) (b : Bool) (st st' : St),
      cfg.check = true → st.candidates idx ≠ 0 →
      backbone_variable cfg ch idx st = some (b, st') →
      st'.checkerLog = st.checkerLog ++
        [Chk.backbone (-(st.candidates idx))] ∧
      ch st.stats.checked (-(st.candidates idx)) = 20 ∧
      st'.stats.checked = st.stats.checked + 1) ∧
    (∀ (cfg : Config) (vars : Nat) (st : St), cfg.check = true →
      st.stats.checked ≠ vars → finish_run cfg vars st = none) ∧
    (∀ (σ : Type) (cfg : Config) (O : Oracle σ) (ch : Checker) (os : σ)
      (vars fuel : Nat) (st : St), cfg.check = true →
      main_run cfg O ch os vars fuel = some (10, st) →
      st.stats.checked = vars ∧ st.checkerLog.length = vars) := by
  refine ⟨?_, ?_, ?_, ?_, ?_, ?_⟩
  · intro ch lit st
    simp only [check_model]
    split
    · rename_i hc
      simp [hc]
    · rename_i hc
      simp [hc]
  · intro ch lit st
    simp only [check_backbone]
    split
    · rename_i hc
      simp [hc]
    · rename_i hc
      simp [hc]
  · intro cfg ch idx st st' hcc h
    obtain ⟨_, _, _, _, _, _, hk, hlog, h10⟩ := drop_candidate_some h
    refine ⟨?_, h10 hcc, ?_⟩
    · rw [hlog, hcc]
      simp
    · rw [hk, hcc]
      simp
  · intro cfg ch idx b st st' hcc hnz h
    obtain ⟨_, _, _, _, _, _, _, hk, hlog, h20⟩ :=
      backbone_variable_some hnz h
    refine ⟨?_, h20 hcc, ?_⟩
    · rw [hlog, hcc]
      simp
    · rw [hk, hcc]
      simp
  · intro cfg vars st hcc hne
    exact finish_run_none hcc hne
  · intro σ cfg O ch os vars fuel st hcc h
    rcases main_run_shape h with ⟨he, _⟩ | ⟨_, sd, hi, _, _, _, hs, _, _,
      hlog, _, hch⟩
    · exact absurd he (by omega)
    · refine ⟨by rw [hs]; exact hch hcc, ?_⟩
      rw [hlog, hi.chk_len hcc, hch hcc]

/-- Witness for C6: the checked run on the three unit clauses performs
exactly three checker interactions, all logged. -/
theorem checker_discipline_witness :
    ((run3chk.getD (0, init_state 0)).2).stats.checked = 3 ∧
    ((run3chk.getD (0, init_state 0)).2).checkerLog.length = 3 := by
  exact checker_discipline.2.2.2.2.2 Unit cfg_chk O3 (chSem F3 3) () 3 10
    ((run3chk.getD (0, init_state 0)).2) rfl rfl

/-- Claim C7: the exit code contract: -h and -V and --version exit 0, an
unknown dash option or a second file argument exits 1, a DIMACS parse
failure exits 1, and a completed run exits 10 with the satisfiable verdict
emitted or 20 with the unsatisfiable verdict (fatal invariant violations
are the modelled aborts, which produce no exit at all). -/
theorem exit_code_contract :
    (∀ (rest : List String) (cfg : Config) (path : Option String),
      parse_args ("-h" :: rest) cfg path = ParseOut.exitc 0) ∧
    (∀ (rest : List String) (cfg : Config) (path : Option String)
      (a : String), a = "-V" ∨ a = "--version" →
      parse_args (a :: rest) cfg path = ParseOut.exitc 0) ∧
    (∀ (rest : List String) (cfg : Config) (path : Option String)
      (a : String), dash_arg a = true → a ∉ known_options →
      parse_args (a :: rest) cfg path = ParseOut.exitc 1) ∧
    (∀ (rest : List String) (cfg : Config) (p : String) (a : String),
      dash_arg a = false → a ∉ known_options →
      parse_args (a :: rest) cfg (some p) = ParseOut.exitc 1) ∧
    (∀ (σ : Type) (args : List String) (cfg : Config) (p : Option String)
      (O : Oracle σ) (ch : Checker) (os : σ) (fuel : Nat),
      parse_args args default_config none = ParseOut.run cfg p →
      cadiback_main args none O ch os fuel = some (1, init_state 0)) ∧
    (∀ (σ : Type) (cfg : Config) (O : Oracle σ) (ch : Checker) (os : σ)
      (vars fuel r : Nat) (st : St),
      main_run cfg O ch os vars fuel = some (r, st) →
      (r = 10 ∧ Line.sat ∈ st.out) ∨ (r = 20 ∧ st.out = [Line.unsat])) := by
  refine ⟨?_, ?_, ?_, ?_, ?_, ?_⟩
  · intro rest cfg path
    simp [parse_args]
  · intro rest cfg path a h
    rcases h with rfl | rfl
    · simp [parse_args]
    · simp [parse_args]
  · intro rest cfg path a hd hmem
    simp only [known_options, List.mem_cons, List.mem_singleton,
      List.not_mem_nil] at hmem
    push_neg at hmem
    obtain ⟨h1, h2, h3, h4, h5, h6, h7, h8, h9, h10, h11, h12, h13, h14,
      h15, h16, h17, h18, h19, h20, h21, h22, h23, h24, -⟩ := hmem
    simp only [parse_args]
    rw [if_neg h1, if_neg (not_or.mpr ⟨h2, h3⟩),
      if_neg (not_or.mpr ⟨h4, h5⟩), if_neg (not_or.mpr ⟨h6, h7⟩),
      if_neg (not_or.mpr ⟨h8, h9⟩), if_neg (not_or.mpr ⟨h10, h11⟩),
      if_neg (not_or.mpr ⟨h12, h13⟩), if_neg (not_or.mpr ⟨h14, h15⟩),
      if_neg (not_or.mpr ⟨h16, h17⟩), if_neg h18, if_neg h19, if_neg h20,
      if_neg h21, if_neg h22, if_neg h23, if_neg h24, if_pos hd]
  · intro rest cfg p a hd hmem
    simp only [known_options, List.mem_cons, List.mem_singleton,
      List.not_mem_nil] at hmem
    push_neg at hmem
    obtain ⟨h1, h2, h3, h4, h5, h6, h7, h8, h9, h10, h11, h12, h13, h14,
      h15, h16, h17, h18, h19, h20, h21, h22, h23, h24, -⟩ := hmem
    simp only [parse_args]
    rw [if_neg h1, if_neg (not_or.mpr ⟨h2, h3⟩),
      if_neg (not_or.mpr ⟨h4, h5⟩), if_neg (not_or.mpr ⟨h6, h7⟩),
      if_neg (not_or.mpr ⟨h8, h9⟩), if_neg (not_or.mpr ⟨h10, h11⟩),
      if_neg (not_or.mpr ⟨h12, h13⟩), if_neg (not_or.mpr ⟨h14, h15⟩),
      if_neg (not_or.mpr ⟨h16, h17⟩), if_neg h18, if_neg h19, if_neg h20,
      if_neg h21, if_neg h22, if_neg h23, if_neg h24,
      if_neg (by simp [hd])]
  · intro σ args cfg p O ch os fuel hp
    simp only [cadiback_main, hp]
  · intro σ cfg O ch os vars fuel r st h
    rcases main_run_shape h with ⟨e20, ho, _⟩ | ⟨e10, sd, _, _, _, ho, _⟩
    · exact Or.inr ⟨e20, ho⟩
    · refine Or.inl ⟨e10, ?_⟩
      rw [ho]
      simp

/-- Witness for C7: help exits 0, version exits 0, an unknown option and a
second file argument exit 1, a failed DIMACS parse exits 1, and the run on
the three unit clauses exits 10 with the satisfiable verdict emitted. -/
theorem exit_code_contract_witness :
    parse_args ["-h"] default_config none = ParseOut.exitc 0 ∧
    parse_args ["--version"] default_config none = ParseOut.exitc 0 ∧
    parse_args ["-x"] default_config none = ParseOut.exitc 1 ∧
    parse_args ["b"] default_config (some "a") = ParseOut.exitc 1 ∧
    cadiback_main ([] : List String) none O3 ch0 () 5 =
      some (1, init_state 0) ∧
    ((10 = 10 ∧ Line.sat ∈ ((run3.getD (0, init_state 0)).2).out) ∨
      (10 = 20 ∧ ((run3.getD (0, init_state 0)).2).out = [Line.unsat])) := by
  refine ⟨?_, ?_, ?_, ?_, ?_, ?_⟩
  · exact exit_code_contract.1 [] default_config none
  · exact exit_code_contract.2.1 [] default_config none "--version"
      (Or.inr rfl)
  · exact exit_code_contract.2.2.1 [] default_config none "-x" (by decide)
      (by decide)
  · exact exit_code_contract.2.2.2.1 [] default_config "a" "b" (by decide)
      (by decide)
  · exact exit_code_contract.2.2.2.2.1 Unit [] default_config none O3 ch0
      () 5 rfl
  · exact exit_code_contract.2.2.2.2.2 Unit default_config O3 ch0 () 3 10
      10 ((run3.getD (0, init_state 0)).2) rfl

/-- Claim C5: after a constrain-based SAT answer, the probe step first
drops the least index at or above idx whose candidate the model falsifies
(the guaranteed drop), then filters the indices strictly above it (leaving
no falsified candidate there when filtering is on), then runs the flip
sweep from idx; and the driver then retries the same idx exactly when its
candidate entry is still nonzero, advancing otherwise. -/
theorem constrain_sat_step_behaviour :
    (∀ (σ : Type) (cfg : Config) (O : Oracle σ) (ch : Checker) (idx : Nat)
      (rs rs3 : RS σ),
      sat_probe_step cfg O ch idx rs = some rs3 →
      ∃ other st1 st2,
        drop_first_candidate cfg ch rs.model idx rs.st = some (other, st1) ∧
        idx ≤ other ∧ other ≤ rs.st.vars ∧
        falsifiedP rs.model rs.st.candidates other ∧
        (∀ j, idx ≤ j → j < other →
          ¬ falsifiedP rs.model rs.st.candidates j) ∧
        st1.candidates other = 0 ∧
        filter_candidates cfg ch rs.model (other+1) st1 = some st2 ∧
        (cfg.no_filter = false → ∀ j, other+1 ≤ j → j ≤ st1.vars →
          ¬ falsifiedP rs.model st2.candidates j) ∧
        try_to_flip_remaining cfg O ch idx { rs with st := st2 } =
          some rs3) ∧
    (∀ (σ : Type) (cfg : Config) (O : Oracle σ) (ch : Checker)
      (fuel idx : Nat) (rs rs1 rs2x rs3 : RS σ) (constr : List Int),
      idx ≤ rs.st.vars →
      rs.st.candidates idx ≠ 0 →
      (if cfg.no_fixed then some (false, rs)
        else fix_candidate cfg O ch idx rs) = some (false, rs1) →
      cfg.one_by_one = false →
      collect_constr cfg O ch (idx_list (idx+1) (rs1.st.vars - idx))
        [-(rs.st.candidates idx)] rs1 = some (constr, rs2x) →
      constr.length > 1 →
      (solve O [] constr rs2x).1 = 10 →
      sat_probe_step cfg O ch idx (solve O [] constr rs2x).2 = some rs3 →
      driver_loop cfg O ch (fuel+1) idx 20 rs =
        (if rs3.st.candidates idx ≠ 0 then
          driver_loop cfg O ch fuel idx 10 rs3
        else driver_loop cfg O ch fuel (idx+1) 10 rs3)) := by
  constructor
  · intro σ cfg O ch idx rs rs3 h
    simp only [sat_probe_step] at h
    split at h
    · cases h
    · rename_i other st1 heq
      split at h
      · cases h
      · rename_i st2 heq2
        obtain ⟨ho1, ho2, hfp, hmin, hdc⟩ := drop_first_candidate_some heq
        obtain ⟨_, hcands, _⟩ := drop_candidate_some hdc
        refine ⟨other, st1, st2, heq, ho1, ho2, hfp, hmin, ?_, heq2, ?_, h⟩
        · rw [hcands]
          simp
        · intro hnf j hj1 hj2
          exact (filter_candidates_step (by omega) heq2).2.2.2.2 hnf j hj1
            hj2
  · intro σ cfg O ch fuel idx rs rs1 rs2x rs3 constr hidx hnz hfix h11
      hcoll hlen hq10 hsps
    have hngt : ¬ (idx > rs.st.vars) := by omega
    have hcond : cfg.one_by_one = false ∧ (20 : Int) = 20 := ⟨h11, rfl⟩
    simp only [driver_loop, if_neg hngt, if_neg hnz, hfix, if_pos hcond,
      hcoll, if_pos hlen, hq10, eq_self_iff_true, if_true, hsps, h11,
      and_true, true_and, and_self]

/-- Witness for C5: on the concrete state rs5 at index 2 (the F1 run
after the first backbone), the constrain call returns a model, the probe
step yields the state w5t whose candidate 2 is still nonzero, and the
driver step is exactly the retry-or-advance dispatch on that entry. -/
theorem constrain_sat_step_behaviour_witness :
    driver_loop default_config O1 ch0 6 2 20 rs5 =
      (if w5t.st.candidates 2 ≠ 0 then
        driver_loop default_config O1 ch0 5 2 10 w5t
      else driver_loop default_config O1 ch0 5 3 10 w5t) := by
  exact constrain_sat_step_behaviour.2 Unit default_config O1 ch0 5 2 rs5
    w5a.2 w5b.2 w5t w5b.1 (by decide) (by decide) rfl rfl rfl (by decide)
    rfl rfl

end Cadiback
